import Mathlib

/-!
# Verification of the quasar-fdw JSON stream decoder (`src/quasar_parse.c`)

This file shallowly embeds the row-assembling JSON decoder of the Quasar
foreign data wrapper.  The parser state (`struct parser`), the yajl event
callbacks (`cb_null`, `cb_boolean`, `cb_number`, `cb_string`, `cb_map_key`,
`cb_start_map`, `cb_end_map`, `cb_start_array`, `cb_end_array`), the helpers
(`get_column`, `is_array_type`, `is_json_type`, `arrayAppendCommaIf`,
`jsonAppendCommaIf`, `checkConversions`, `store_datum`, `store_null`,
`warncheck`) and the driver `quasar_parse` are translated from the C source.
`elog(ERROR, ...)` (a fatal longjmp in PostgreSQL) is modelled as an error
result; `elog(WARNING/DEBUG, ...)` only logs and is modelled as a no-op
(except for the `warned` flag mutation performed by `warncheck`).
PostgreSQL's `InputFunctionCall` (the per-type text-input conversion) is
external to this repository; a stored datum is modelled as the literal text
after `checkConversions`.

The incremental JSON tokenizer (yajl) is an external library: only its
declarations and call sites appear in the repository.  It is modelled from
the spec (section 4.2) as a resumable character-level tokenizer emitting the
event set the callbacks consume.
-/

namespace QuasarFdw

/-- PostgreSQL type OIDs that `quasar_parse.c` discriminates on
(`INT2OID`, `INT4OID`, `JSONOID`, `JSONBOID`), plus representatives of the
other OIDs it treats uniformly via `default:` branches. -/
inductive PgType
  | int2
  | int4
  | int8
  | jsonT
  | jsonbT
  | textT
  | boolT
  | float8
  | other
deriving DecidableEq, Repr

/-- The per-attribute metadata of `Form_pg_attribute` that the decoder reads:
name, type OID, array dimensionality and the dropped flag. -/
structure Column where
  attname : String
  atttypid : PgType
  attndims : Nat
  attisdropped : Bool
deriving DecidableEq, Repr

/-- The tuple descriptor: the ordered list of columns (`tupdesc->attrs`). -/
abbrev Schema := List Column

/-- `is_array_type`: `get_column(p)->attndims > 0`. -/
def is_array_type (c : Column) : Bool :=
  0 < c.attndims

/-- `is_json_type`: `atttypid` is `JSONOID` or `JSONBOID`. -/
def is_json_type (c : Column) : Bool :=
  match c.atttypid with
  | .jsonT => true
  | .jsonbT => true
  | _ => false

/-- The yajl callback event set consumed by the row assembler.  `jnumber`
carries the raw literal text (the yajl `number` callback is registered, not
`integer`/`double`); `jstring` carries the decoded string contents. -/
inductive JEvent
  | jnull
  | jboolean (b : Bool)
  | jnumber (s : String)
  | jstring (s : String)
  | mapKey (s : String)
  | startMap
  | endMap
  | startArray
  | endArray
deriving DecidableEq, Repr

/-- The decoder state, `struct parser`.  `values` fuses the C `values`/`nulls`
pair: `none` is a null slot, `some t` a stored datum (modelled as the literal
text handed to `InputFunctionCall`).  `cur_col` is `none` for `NO_COLUMN`.
`level` is the C `int level`. -/
structure PState where
  values : List (Option String)
  cur_col : Option Nat
  record_complete : Bool
  record_started : Bool
  level : Int
  json : String
  array : String
  warned : Bool
deriving DecidableEq, Repr

/-- `get_column`: returns the current column, or `none` where the C code
raises `elog(ERROR, "Got a value when no column specified!")` (that is, when
`cur_col` is `NO_COLUMN` or out of range). -/
def get_column (schema : Schema) (p : PState) : Option Column :=
  match p.cur_col with
  | some i => schema[i]?
  | none => none

/-- The last character of a `StringInfo` buffer (`s->data[s->len - 1]`),
or `none` when the buffer is empty. -/
def lastChar (s : String) : Option Char :=
  s.data.getLast?

/-- `arrayAppendCommaIf`: append `','` unless the buffer is empty or already
ends in `'{'` or `','`. -/
def arrayAppendCommaIf (s : String) : String :=
  match lastChar s with
  | none => s
  | some c => if c = '{' ∨ c = ',' then s else s.push ','

/-- `jsonAppendCommaIf`: append `','` unless the buffer is empty or already
ends in `'{'`, `'['`, `':'` or `','`. -/
def jsonAppendCommaIf (s : String) : String :=
  match lastChar s with
  | none => s
  | some c => if c = '{' ∨ c = '[' ∨ c = ':' ∨ c = ',' then s else s.push ','

/-- `checkConversions`: for a zero-dimension `INT2`/`INT4` column, strip a
trailing `".0"` from the literal when the text is longer than two characters
(`len > 2 && strcmp(value + len - 2, ".0") == 0`, then truncating two
characters). -/
def checkConversions (c : Column) (value : String) : String :=
  if 0 < c.attndims then value
  else
    match c.atttypid with
    | .int2 =>
      if 2 < value.length ∧ value.data.reverse.take 2 = ['0', '.'] then
        String.mk (value.data.take (value.length - 2))
      else value
    | .int4 =>
      if 2 < value.length ∧ value.data.reverse.take 2 = ['0', '.'] then
        String.mk (value.data.take (value.length - 2))
      else value
    | _ => value

/-- Rendering of the `fmt` argument of `store_datum`: `"%s"` (plain) or
`"\"%s\""` (quoted, used by `cb_string`). -/
def render (s : String) (quoted : Bool) : String :=
  if quoted then "\"" ++ s ++ "\"" else s

/-- `store_datum`.  Sets `record_started`; at `COLUMN_LEVEL` converts into the
row slot for `cur_col` (fatal if no column is selected); above `COLUMN_LEVEL`
appends to the json or array accumulation buffer when the current column is
json- or array-shaped; otherwise does nothing further.  `none` models
`elog(ERROR, ...)`. -/
def store_datum (schema : Schema) (p : PState) (s : String) (quoted : Bool) :
    Option PState :=
  let p := { p with record_started := true }
  if p.level = 1 then
    match p.cur_col with
    | some i =>
      match schema[i]? with
      | some col =>
        if ¬ col.attisdropped then
          some { p with values := p.values.set i (some (checkConversions col s)) }
        else
          some p
      | none => none
    | none => none
  else if 1 < p.level then
    match get_column schema p with
    | none => none
    | some col =>
      if is_json_type col then
        some { p with json := jsonAppendCommaIf p.json ++ render s quoted }
      else if is_array_type col then
        some { p with array := arrayAppendCommaIf p.array ++ render s quoted }
      else
        some p
  else
    some p

/-- `store_null`.  Sets `record_started`; above `COLUMN_LEVEL` appends the
JSON `null` token to the json buffer or the composite-literal `NULL` token to
the array buffer; at `COLUMN_LEVEL` it returns (slots start out null); at any
other level the C code raises `elog(ERROR, "storing null when level is above
columns")`, and a shape-mismatched column above `COLUMN_LEVEL` likewise falls
through to that fatal branch. -/
def store_null (schema : Schema) (p : PState) : Option PState :=
  let p := { p with record_started := true }
  if 1 < p.level then
    match get_column schema p with
    | none => none
    | some col =>
      if is_json_type col then
        some { p with json := jsonAppendCommaIf p.json ++ "null" }
      else if is_array_type col then
        some { p with array := arrayAppendCommaIf p.array ++ "NULL" }
      else
        none
  else if p.level = 1 then
    some p
  else
    none

/-- The column-name lookup loop in `cb_map_key`: the first schema index whose
`attname` equals the key, else `NO_COLUMN`. -/
def lookupColumn (schema : Schema) (s : String) : Option Nat :=
  schema.findIdx? (fun c => c.attname = s)

/-- `cb_map_key`.  At `COLUMN_LEVEL` re-resolves `cur_col` by name (a missing
name yields `NO_COLUMN` with only a debug note); above `COLUMN_LEVEL`
re-serializes the key into the json buffer when the current column is
json-shaped and otherwise does nothing. -/
def cb_map_key (schema : Schema) (p : PState) (s : String) : Option PState :=
  if p.level = 1 then
    some { p with cur_col := lookupColumn schema s }
  else if 1 < p.level then
    match get_column schema p with
    | none => none
    | some col =>
      if is_json_type col then
        some { p with json := jsonAppendCommaIf p.json ++ "\"" ++ s ++ "\":" }
      else
        some p
  else
    some p

/-- Result of one yajl callback: continue (`YAJL_OK`), stop parsing
(`YAJL_CANCEL`, state untouched), or fatal `elog(ERROR, ...)`. -/
inductive Step
  | ok (p : PState)
  | cancel (p : PState)
  | err
deriving DecidableEq, Repr

/-- `cb_start_map`.  At `TOP_LEVEL` with a pending completed record, cancels
parsing; at `TOP_LEVEL` otherwise resets every row slot to null.  At or above
`COLUMN_LEVEL`, a json-shaped column gets an opening brace appended to the
json buffer; any other column raises the one-shot scalar-vs-json warning.
The level is then incremented. -/
def cb_start_map (schema : Schema) (p : PState) : Step :=
  if p.level = 0 ∧ p.record_complete then
    .cancel p
  else
    let p :=
      if p.level = 0 then
        { p with values := List.replicate schema.length none }
      else p
    if 1 ≤ p.level then
      match get_column schema p with
      | none => .err
      | some col =>
        if is_json_type col then
          .ok { p with json := (jsonAppendCommaIf p.json).push '{', level := p.level + 1 }
        else if ¬ p.warned then
          .ok { p with warned := true, level := p.level + 1 }
        else
          .ok { p with level := p.level + 1 }
    else
      .ok { p with level := p.level + 1 }

/-- Draining of the json accumulation buffer when the level returns to
`COLUMN_LEVEL` (the body of the corresponding branch of `cb_end_map` and
`cb_end_array`): an empty buffer stores null, otherwise the buffer text is
stored as the column value and the buffer reset. -/
def drainJson (schema : Schema) (p : PState) : Option PState :=
  if p.json.length = 0 then
    store_null schema p
  else
    match store_datum schema p p.json false with
    | none => none
    | some p' => some { p' with json := "" }

/-- Draining of the array accumulation buffer when the level returns to
`COLUMN_LEVEL` (the body of the corresponding branch of `cb_end_array`). -/
def drainArray (schema : Schema) (p : PState) : Option PState :=
  if p.array.length = 0 then
    store_null schema p
  else
    match store_datum schema p p.array false with
    | none => none
    | some p' => some { p' with array := "" }

/-- The first statement of `cb_end_map`: above `COLUMN_LEVEL` a json-shaped
column gets a closing brace appended to the json buffer. -/
def endMapClose (schema : Schema) (p : PState) : Option PState :=
  if 1 < p.level then
    match get_column schema p with
    | none => none
    | some col =>
      if is_json_type col then some { p with json := p.json.push '}' }
      else some p
  else
    some p

/-- The tail of `cb_end_map` after the level decrement: back at
`COLUMN_LEVEL` the json buffer is drained into the row slot, back at
`TOP_LEVEL` the record is marked complete. -/
def endMapFinish (schema : Schema) (p : PState) : Option PState :=
  if p.level = 1 then drainJson schema p
  else if p.level = 0 then some { p with record_complete := true }
  else some p

/-- `cb_end_map`: the closing-delimiter append, the level decrement, then
the finishing actions. -/
def cb_end_map (schema : Schema) (p : PState) : Option PState :=
  match endMapClose schema p with
  | none => none
  | some p => endMapFinish schema { p with level := p.level - 1 }

/-- `cb_start_array`.  At or above `COLUMN_LEVEL`, an array-shaped column gets
an opening composite-literal brace in the array buffer, a json-shaped column
an opening bracket in the json buffer.  The level is then incremented. -/
def cb_start_array (schema : Schema) (p : PState) : Option PState :=
  if 1 ≤ p.level then
    match get_column schema p with
    | none => none
    | some col =>
      if is_array_type col then
        some { p with array := (arrayAppendCommaIf p.array).push '{', level := p.level + 1 }
      else if is_json_type col then
        some { p with json := (jsonAppendCommaIf p.json).push '[', level := p.level + 1 }
      else
        some { p with level := p.level + 1 }
  else
    some { p with level := p.level + 1 }

/-- The first statement of `cb_end_array`: above `COLUMN_LEVEL`, an
array-shaped column gets a closing composite-literal brace, a json-shaped one
a closing bracket, and any other column raises the one-shot warning. -/
def endArrayClose (schema : Schema) (p : PState) : Option PState :=
  if 1 < p.level then
    match get_column schema p with
    | none => none
    | some col =>
      if is_array_type col then some { p with array := p.array.push '}' }
      else if is_json_type col then some { p with json := p.json ++ "]" }
      else if ¬ p.warned then some { p with warned := true }
      else some p
  else
    some p

/-- The tail of `cb_end_array` after the level decrement: back at
`COLUMN_LEVEL` the accumulation buffer matching the column shape is drained
into the row slot. -/
def endArrayFinish (schema : Schema) (p : PState) : Option PState :=
  if p.level = 1 then
    match get_column schema p with
    | none => none
    | some col =>
      if is_json_type col then drainJson schema p
      else if is_array_type col then drainArray schema p
      else some p
  else
    some p

/-- `cb_end_array`: the closing-delimiter append, the level decrement, then
the finishing actions. -/
def cb_end_array (schema : Schema) (p : PState) : Option PState :=
  match endArrayClose schema p with
  | none => none
  | some p => endArrayFinish schema { p with level := p.level - 1 }

/-- Lift the `Option` result of an infallible-to-cancel callback. -/
def oStep : Option PState → Step
  | some p => .ok p
  | none => .err

/-- Dispatch of one yajl event to its callback (the `yajl_callbacks` table:
`cb_boolean` renders `true`/`false` with `"%s"`, `cb_number` passes the raw
text with `"%s"`, `cb_string` uses `"\"%s\""`). -/
def pstep (schema : Schema) (p : PState) : JEvent → Step
  | .jnull => oStep (store_null schema p)
  | .jboolean b => oStep (store_datum schema p (if b then "true" else "false") false)
  | .jnumber s => oStep (store_datum schema p s false)
  | .jstring s => oStep (store_datum schema p s true)
  | .mapKey s => oStep (cb_map_key schema p s)
  | .startMap => cb_start_map schema p
  | .endMap => oStep (cb_end_map schema p)
  | .startArray => oStep (cb_start_array schema p)
  | .endArray => oStep (cb_end_array schema p)

/-- Deliver a sequence of events; yajl stops delivering on the first
cancelled or failed callback. -/
def runEvents (schema : Schema) (p : PState) : List JEvent → Step
  | [] => .ok p
  | e :: es =>
    match pstep schema p e with
    | .ok p' => runEvents schema p' es
    | .cancel p' => .cancel p'
    | .err => .err

/-- The parser state built by `quasar_parse_alloc` (fresh `values`/`nulls`
modelled as an all-null row). -/
def initPState (schema : Schema) : PState :=
  { values := List.replicate schema.length none
    cur_col := none
    record_complete := false
    record_started := false
    level := 0
    json := ""
    array := ""
    warned := false }

/-! ## The incremental JSON tokenizer

Modelled from the spec: the yajl library linked by `quasar_parse.c` is not
part of this repository (only `yajl/yajl_parse.h` declarations and the call
sites are), so the Lexer/Grammar Engine of spec section 4.2 is modelled here:
"a conventional incremental JSON tokenizer producing the event set {null,
boolean, number, string, map-key, start-object, end-object, start-array,
end-array}", supporting (1) resumable parsing across calls with partial
tokens held internally, (2) a stop-parsing-now signal raised by the consumer,
(3) precise byte-consumption accounting, and (4) a reset operation.  It runs
with `yajl_allow_multiple_values`, so after a complete top-level value the
tokenizer state returns to its initial configuration. -/

/-- Escape progress inside a string token. -/
inductive EscSt
  | no
  | simple
  | hex (ds : List Char)
deriving DecidableEq, Repr

/-- A partially lexed token carried across buffer boundaries. -/
inductive TokState
  | tnone
  | tstr (isKey : Bool) (acc : List Char) (esc : EscSt)
  | tnum (acc : List Char)
  | tlit (rem : List Char) (ev : JEvent)
deriving DecidableEq, Repr

/-- The grammar expectation at the current point of the event stream. -/
inductive LexMode
  | anyVal
  | objStart
  | objKey
  | objColon
  | objVal
  | arrStart
  | arrVal
  | arrAfter
  | objAfter
deriving DecidableEq, Repr

/-- Tokenizer state: partial token, grammar expectation, and the stack of
open containers (`true` = object frame, `false` = array frame). -/
structure LexState where
  tok : TokState
  mode : LexMode
  stack : List Bool
deriving DecidableEq, Repr

/-- The freshly allocated (or `yajl_reset`) tokenizer state. -/
def lexInit : LexState := ⟨.tnone, .anyVal, []⟩

/-- Expectation after a value completes, given the enclosing container. -/
def afterValue (stack : List Bool) : LexMode :=
  match stack with
  | [] => .anyVal
  | true :: _ => .objAfter
  | false :: _ => .arrAfter

/-- Pop the innermost container frame at `}`/`]`. -/
def popFrame (L : LexState) : LexState :=
  match L.stack with
  | [] => L
  | _ :: st => ⟨.tnone, afterValue st, st⟩

def isWs (c : Char) : Bool :=
  c = ' ' ∨ c = '\t' ∨ c = '\n' ∨ c = '\r'

def isDigit (c : Char) : Bool :=
  '0' ≤ c ∧ c ≤ '9'

/-- Characters that may continue a number token. -/
def isNumChar (c : Char) : Bool :=
  isDigit c ∨ c = '.' ∨ c = '-' ∨ c = '+' ∨ c = 'e' ∨ c = 'E'

def hexVal (c : Char) : Option Nat :=
  if '0' ≤ c ∧ c ≤ '9' then some (c.toNat - '0'.toNat)
  else if 'a' ≤ c ∧ c ≤ 'f' then some (c.toNat - 'a'.toNat + 10)
  else if 'A' ≤ c ∧ c ≤ 'F' then some (c.toNat - 'A'.toNat + 10)
  else none

def hexChar (ds : List Char) : Char :=
  Char.ofNat (ds.foldl (fun n c => 16 * n + (hexVal c).getD 0) 0)

/-- Decoding of a simple escape character. -/
def unescape (c : Char) : Option Char :=
  if c = '"' then some '"'
  else if c = '\\' then some '\\'
  else if c = '/' then some '/'
  else if c = 'b' then some (Char.ofNat 8)
  else if c = 'f' then some (Char.ofNat 12)
  else if c = 'n' then some '\n'
  else if c = 'r' then some '\r'
  else if c = 't' then some '\t'
  else none

/-- Start of a value token in a value position.  `none` models a tokenizer
error (`yajl_status_error`). -/
def startValue (L : LexState) (c : Char) : Option (LexState × List JEvent) :=
  if c = '{' then some (⟨.tnone, .objStart, true :: L.stack⟩, [.startMap])
  else if c = '[' then some (⟨.tnone, .arrStart, false :: L.stack⟩, [.startArray])
  else if c = '"' then some (⟨.tstr false [] .no, L.mode, L.stack⟩, [])
  else if isDigit c ∨ c = '-' then some (⟨.tnum [c], L.mode, L.stack⟩, [])
  else if c = 't' then some (⟨.tlit ['r', 'u', 'e'] (.jboolean true), L.mode, L.stack⟩, [])
  else if c = 'f' then some (⟨.tlit ['a', 'l', 's', 'e'] (.jboolean false), L.mode, L.stack⟩, [])
  else if c = 'n' then some (⟨.tlit ['u', 'l', 'l'] .jnull, L.mode, L.stack⟩, [])
  else none

/-- One structural character outside any partial token. -/
def stepStruct (L : LexState) (c : Char) : Option (LexState × List JEvent) :=
  if isWs c then some (L, [])
  else
    match L.mode with
    | .anyVal => startValue L c
    | .objVal => startValue L c
    | .arrVal => startValue L c
    | .arrStart =>
      if c = ']' then some (popFrame L, [.endArray]) else startValue L c
    | .objStart =>
      if c = '}' then some (popFrame L, [.endMap])
      else if c = '"' then some (⟨.tstr true [] .no, L.mode, L.stack⟩, [])
      else none
    | .objKey =>
      if c = '"' then some (⟨.tstr true [] .no, L.mode, L.stack⟩, []) else none
    | .objColon =>
      if c = ':' then some (⟨.tnone, .objVal, L.stack⟩, []) else none
    | .objAfter =>
      if c = ',' then some (⟨.tnone, .objKey, L.stack⟩, [])
      else if c = '}' then some (popFrame L, [.endMap])
      else none
    | .arrAfter =>
      if c = ',' then some (⟨.tnone, .arrVal, L.stack⟩, [])
      else if c = ']' then some (popFrame L, [.endArray])
      else none

/-- One character of input.  A delimiter ending a number token emits the
number event and is then reprocessed structurally (the tokenizer's one-byte
lookahead for numbers). -/
def lexStep (L : LexState) (c : Char) : Option (LexState × List JEvent) :=
  match L.tok with
  | .tnone => stepStruct L c
  | .tstr isKey acc esc =>
    match esc with
    | .no =>
      if c = '"' then
        if isKey then
          some (⟨.tnone, .objColon, L.stack⟩, [.mapKey (String.mk acc)])
        else
          some (⟨.tnone, afterValue L.stack, L.stack⟩, [.jstring (String.mk acc)])
      else if c = '\\' then some (⟨.tstr isKey acc .simple, L.mode, L.stack⟩, [])
      else if c.toNat < 32 then none
      else some (⟨.tstr isKey (acc ++ [c]) .no, L.mode, L.stack⟩, [])
    | .simple =>
      if c = 'u' then some (⟨.tstr isKey acc (.hex []), L.mode, L.stack⟩, [])
      else
        match unescape c with
        | some d => some (⟨.tstr isKey (acc ++ [d]) .no, L.mode, L.stack⟩, [])
        | none => none
    | .hex ds =>
      match hexVal c with
      | none => none
      | some _ =>
        let ds := ds ++ [c]
        if ds.length = 4 then
          some (⟨.tstr isKey (acc ++ [hexChar ds]) .no, L.mode, L.stack⟩, [])
        else
          some (⟨.tstr isKey acc (.hex ds), L.mode, L.stack⟩, [])
  | .tnum acc =>
    if isNumChar c then some (⟨.tnum (acc ++ [c]), L.mode, L.stack⟩, [])
    else
      match stepStruct ⟨.tnone, afterValue L.stack, L.stack⟩ c with
      | none => none
      | some (L', evs) => some (L', .jnumber (String.mk acc) :: evs)
  | .tlit rem ev =>
    match rem with
    | [] => none
    | r :: rs =>
      if c = r then
        if rs.isEmpty then some (⟨.tnone, afterValue L.stack, L.stack⟩, [ev])
        else some (⟨.tlit rs ev, L.mode, L.stack⟩, [])
      else none

/-- Pure tokenization of a character list, collecting all emitted events. -/
def lexChars (L : LexState) : List Char → Option (LexState × List JEvent)
  | [] => some (L, [])
  | c :: cs =>
    match lexStep L c with
    | none => none
    | some (L', evs) =>
      match lexChars L' cs with
      | none => none
      | some (L'', evs') => some (L'', evs ++ evs')

/-! ## The decode step (`quasar_parse`) and the caller's loop -/

/-- Outcome of one `yajl_parse` call over a chunk: `ok` = `yajl_status_ok`
(whole chunk consumed), `canceled n` = `yajl_status_client_canceled` after
consuming `n` bytes, `err` = `yajl_status_error` or a fatal callback error. -/
inductive YRes
  | ok (L : LexState) (p : PState)
  | canceled (n : Nat) (p : PState)
  | err
deriving DecidableEq, Repr

/-- `yajl_parse` over one chunk: characters are tokenized one at a time and
the emitted events delivered to the callbacks; a cancelled callback stops
consumption at the current byte. -/
def yajlRun (schema : Schema) (L : LexState) (p : PState) : List Char → YRes
  | [] => .ok L p
  | c :: cs =>
    match lexStep L c with
    | none => .err
    | some (L', evs) =>
      match runEvents schema p evs with
      | .err => .err
      | .cancel p' => .canceled 1 p'
      | .ok p' =>
        match yajlRun schema L' p' cs with
        | .canceled n q => .canceled (n + 1) q
        | r => r

/-- The return statuses `P_NO_RECORD`, `P_RECORD_STARTED`,
`P_RECORD_COMPLETE` of `quasar_parse`. -/
inductive PRet
  | noRecord
  | recordStarted
  | recordComplete
deriving DecidableEq, Repr

/-- A decoded row as formed by `heap_form_tuple` from `values`/`nulls`. -/
abbrev Row := List (Option String)

/-- Result of one `quasar_parse` call: status, tokenizer and parser state,
the advanced buffer offset, and the completed row if any. -/
structure QPOut where
  ret : PRet
  L : LexState
  p : PState
  loc : Nat
  row : Option Row
deriving DecidableEq, Repr

/-- Epilogue of `quasar_parse` after `yajl_parse` returned: choose the return
status from the record flags, advance `*buf_loc` by the consumed bytes, clear
both flags, and form the tuple on a complete record. -/
def qpFinish (L : LexState) (p : PState) (loc bytes : Nat) : QPOut :=
  { ret :=
      if p.record_complete then .recordComplete
      else if p.record_started then .recordStarted
      else .noRecord
    L := L
    p := { p with record_complete := false, record_started := false }
    loc := loc + bytes
    row := if p.record_complete then some p.values else none }

/-- `quasar_parse`: if unconsumed bytes remain, run `yajl_parse` on them; a
parse error is fatal (`none`); on client cancellation the consumed byte count
is decremented by one and the tokenizer is reset (`yajl_reset`); then the
epilogue runs.  With no unconsumed bytes it returns `P_NO_RECORD`
untouched. -/
def quasar_parse (schema : Schema) (stream : List Char) (L : LexState) (p : PState)
    (loc size : Nat) : Option QPOut :=
  if loc < size then
    let chunk := (stream.drop loc).take (size - loc)
    match yajlRun schema L p chunk with
    | .err => none
    | .ok L1 p1 => some (qpFinish L1 p1 loc chunk.length)
    | .canceled n p1 => some (qpFinish lexInit p1 loc (n - 1))
  else
    some { ret := .noRecord, L := L, p := p, loc := loc, row := none }

/-- Result of repeatedly invoking the decode step: the rows produced in
order with the final state, a fatal decode error, or fuel exhaustion. -/
inductive DriveRes
  | out (rows : List Row) (L : LexState) (p : PState) (loc : Nat)
  | fail
  | nofuel
deriving DecidableEq, Repr

/-- The caller's loop: invoke `quasar_parse` on the buffer prefix of length
`size`, collecting completed rows, until the cursor reaches `size`. -/
def drive (schema : Schema) (stream : List Char) (size : Nat) :
    Nat → LexState → PState → Nat → DriveRes
  | fuel, L, p, loc =>
    if size ≤ loc then .out [] L p loc
    else
      match fuel with
      | 0 => .nofuel
      | fuel + 1 =>
        match quasar_parse schema stream L p loc size with
        | none => .fail
        | some o =>
          match drive schema stream size fuel o.L o.p o.loc with
          | .out rows Lf pf locf => .out (o.row.toList ++ rows) Lf pf locf
          | r => r

/-! ## Abstract JSON values

Well-formed input is characterized through abstract JSON values and the
event sequences they tokenize to. -/

mutual
/-- An abstract JSON value. -/
inductive JVal
  | vnull
  | vbool (b : Bool)
  | vnum (s : String)
  | vstr (s : String)
  | vobj (ms : JMembers)
  | varr (es : JElems)

/-- The member list of a JSON object. -/
inductive JMembers
  | nil
  | cons (k : String) (v : JVal) (rest : JMembers)

/-- The element list of a JSON array. -/
inductive JElems
  | nil
  | cons (v : JVal) (rest : JElems)
end

mutual
/-- The event sequence a JSON value tokenizes to. -/
def JVal.events : JVal → List JEvent
  | .vnull => [.jnull]
  | .vbool b => [.jboolean b]
  | .vnum s => [.jnumber s]
  | .vstr s => [.jstring s]
  | .vobj ms => .startMap :: (JMembers.events ms ++ [.endMap])
  | .varr es => .startArray :: (JElems.events es ++ [.endArray])

/-- Events of an object body: each member is its key followed by its value. -/
def JMembers.events : JMembers → List JEvent
  | .nil => []
  | .cons k v rest => .mapKey k :: (JVal.events v ++ JMembers.events rest)

/-- Events of an array body. -/
def JElems.events : JElems → List JEvent
  | .nil => []
  | .cons v rest => JVal.events v ++ JElems.events rest
end

/-- Clearing of both record flags, as done by the `quasar_parse` epilogue. -/
def clearFlags (p : PState) : PState :=
  { p with record_complete := false, record_started := false }

/-- Clearing of the `record_started` flag only. -/
def eraseStarted (p : PState) : PState :=
  { p with record_started := false }

/-- Clearing of the `record_started` flag in a callback result. -/
def stepErase : Step → Step
  | .ok p => .ok (eraseStarted p)
  | .cancel p => .cancel (eraseStarted p)
  | .err => .err

/-- Clearing of the `record_started` flag in a `yajl_parse` result. -/
def yErase : YRes → YRes
  | .ok L p => .ok L (eraseStarted p)
  | .canceled n p => .canceled n (eraseStarted p)
  | .err => .err

/-- A record-boundary state of the row assembler: between records, both
record flags clear. -/
def Boundary (p : PState) : Prop :=
  p.level = 0 ∧ p.record_complete = false ∧ p.record_started = false

/-- One well-formed record segment: the serialized text of one JSON object
(the wire format concatenates objects with no separators, so it starts with
`'{'` and ends with the matching `'}'`) that tokenizes from the initial
tokenizer state back to the initial tokenizer state, emitting exactly the
events of that object. -/
def SegOk (s : List Char) (ms : JMembers) : Prop :=
  s.head? = some '{' ∧ s.getLast? = some '}' ∧
  lexChars lexInit s = some (lexInit, (JVal.vobj ms).events)

/-- The byte stream obtained by concatenating record segments. -/
def joinSegs (ss : List (List Char × JMembers)) : List Char :=
  (ss.map Prod.fst).flatten

/-- Every listed segment is well formed. -/
def SegsOk (ss : List (List Char × JMembers)) : Prop :=
  ∀ sm ∈ ss, SegOk sm.1 sm.2

/-- Record-at-a-time reference semantics: deliver each record's events from
the current state, collect the completed row, clear the record flags, and
continue.  `none` models a fatal decode error. -/
def runSegs (schema : Schema) (p : PState) :
    List (List Char × JMembers) → Option (List Row × PState)
  | [] => some ([], p)
  | (_, ms) :: rest =>
    match runEvents schema p (JVal.vobj ms).events with
    | .ok p1 =>
      match runSegs schema (clearFlags p1) rest with
      | some (rows, pf) => some (p1.values :: rows, pf)
      | none => none
    | _ => none

/-- Nesting-level change contributed by one event. -/
def edelta : JEvent → Int
  | .startMap => 1
  | .startArray => 1
  | .endMap => -1
  | .endArray => -1
  | _ => 0

/-- Total nesting-level change of an event sequence. -/
def dsum (evs : List JEvent) : Int :=
  (evs.map edelta).sum

/-- Minimum over all prefixes of the running nesting-level sum (always at
most `0`, realized by the empty prefix). -/
def minPre : List JEvent → Int
  | [] => 0
  | e :: es => min 0 (edelta e + minPre es)

/-- A zero-dimension `int4` column named `id`. -/
def intCol : Column :=
  { attname := "id", atttypid := .int4, attndims := 0, attisdropped := false }

/-- A text-array column named `tags`. -/
def tagsCol : Column :=
  { attname := "tags", atttypid := .textT, attndims := 1, attisdropped := false }

/-- A raw-document (`json`-typed) column named `meta`. -/
def metaCol : Column :=
  { attname := "meta", atttypid := .jsonT, attndims := 0, attisdropped := false }

/-- Concrete schema of the spec's scenario section: an integer column, a
text-array column and a raw-document (json) column. -/
def exSchema : Schema :=
  [intCol, tagsCol, metaCol]

/-- An `int4`-array column named `a`. -/
def arrCol : Column :=
  { attname := "a", atttypid := .int4, attndims := 1, attisdropped := false }

/-- A one-column schema holding an integer-array column. -/
def arrIntSchema : Schema :=
  [arrCol]

/-- A state in the middle of an array value for the `arrIntSchema` column:
nesting level 2, current column resolved to the array column. -/
def pArrMid : PState :=
  { values := [none], cur_col := some 0, record_complete := false,
    record_started := true, level := 2, json := "", array := "", warned := false }

/-- A state in the middle of a raw-document value for the `meta` column of
`exSchema`: nesting level 2, current column resolved to the json column. -/
def pJsonMid : PState :=
  { values := [none, none, none], cur_col := some 2, record_complete := false,
    record_started := true, level := 2, json := "", array := "", warned := false }

/-- A state in the middle of a mismatched nested structure under the scalar
`id` column of `exSchema`: nesting level 2, current column the scalar one. -/
def pScalarMid : PState :=
  { values := [none, none, none], cur_col := some 0, record_complete := false,
    record_started := true, level := 2, json := "", array := "", warned := true }

/-- Serialized text of the first record of the two-record example stream. -/
def c2seg1 : List Char := "\x7b\"id\":1\x7d".data

/-- Serialized text of the second record of the two-record example stream. -/
def c2seg2 : List Char := "\x7b\"id\":2\x7d".data

/-- Abstract members of the first example record. -/
def c2ms1 : JMembers := .cons "id" (.vnum "1") .nil

/-- Abstract members of the second example record. -/
def c2ms2 : JMembers := .cons "id" (.vnum "2") .nil

/-- The two-record example stream as a segment list. -/
def c2ss : List (List Char × JMembers) := [(c2seg1, c2ms1), (c2seg2, c2ms2)]

/-- Rows decoded from the two-record example stream against `exSchema`. -/
def c2rows : List Row := [[some "1", none, none], [some "2", none, none]]

/-- Final parser state after decoding the two-record example stream. -/
def c2pf : PState :=
  { values := [some "2", none, none], cur_col := some 0, record_complete := false,
    record_started := false, level := 0, json := "", array := "", warned := false }

/-- Parser state after the first example record: row assembled, both
record flags set, level back to 0. -/
def c3pf : PState :=
  { values := [some "1", none, none], cur_col := some 0, record_complete := true,
    record_started := true, level := 0, json := "", array := "", warned := false }

/-- The top-level key list of a JSON object's members. -/
def JMembers.keys : JMembers → List String
  | .nil => []
  | .cons k _ rest => k :: JMembers.keys rest

/-- Example chunk for the no-value-event scenario: the opening of a record
and of its nested raw-document value, with no scalar in between. -/
def c10chunk : List Char := "\x7b\"meta\":\x7b".data

/-- The example stream holding just that chunk. -/
def c10stream : List Char := c10chunk

/-- Tokenizer state after the example chunk. -/
def c10L : LexState := ⟨.tnone, .objStart, [true, true]⟩

/-- Events delivered for the example chunk. -/
def c10evs : List JEvent := [.startMap, .mapKey "meta", .startMap]

/-- Parser state after the example chunk: record in progress, no store yet. -/
def c10pm : PState :=
  { values := [none, none, none], cur_col := some 2, record_complete := false,
    record_started := false, level := 2, json := "\x7b", array := "",
    warned := false }

/-- Events whose callbacks never call store_datum or store_null. -/
def NonStoring (e : JEvent) : Prop :=
  (∃ k, e = .mapKey k) ∨ e = .startMap ∨ e = .startArray

/-! ## Theorems -/

/-! ### Per-callback characterization lemmas -/

theorem store_datum_spec {schema : Schema} {p : PState} {s : String} {b : Bool} {p' : PState}
    (h : store_datum schema p s b = some p') :
    p'.level = p.level ∧ p'.cur_col = p.cur_col ∧
    p'.record_complete = p.record_complete ∧ p'.warned = p.warned ∧
    p'.record_started = true ∧
    (∀ i : Nat, p.cur_col ≠ some i → p'.values[i]? = p.values[i]?) ∧
    (p.level ≠ 1 → p'.values = p.values) := by
  obtain ⟨vals, cc, rc, rs, lv, js, ar, wn⟩ := p
  simp only [store_datum] at h
  repeat' split at h
  all_goals cases h
  all_goals simp_all [List.getElem?_set_ne]

theorem store_null_spec {schema : Schema} {p : PState} {p' : PState}
    (h : store_null schema p = some p') :
    p'.level = p.level ∧ p'.cur_col = p.cur_col ∧
    p'.record_complete = p.record_complete ∧ p'.warned = p.warned ∧
    p'.record_started = true ∧ p'.values = p.values := by
  obtain ⟨vals, cc, rc, rs, lv, js, ar, wn⟩ := p
  simp only [store_null] at h
  repeat' split at h
  all_goals cases h
  all_goals simp_all

theorem drainJson_spec {schema : Schema} {p : PState} {p' : PState}
    (h : drainJson schema p = some p') :
    p'.level = p.level ∧ p'.cur_col = p.cur_col ∧
    p'.record_complete = p.record_complete ∧ p'.warned = p.warned ∧
    p'.record_started = true ∧
    (∀ i : Nat, p.cur_col ≠ some i → p'.values[i]? = p.values[i]?) := by
  unfold drainJson at h
  split at h
  · obtain ⟨h1, h2, h3, h4, h5, h6⟩ := store_null_spec h
    exact ⟨h1, h2, h3, h4, h5, fun i _ => by rw [h6]⟩
  · split at h
    · cases h
    · rename_i a heq
      obtain ⟨h1, h2, h3, h4, h5, h6, h7⟩ := store_datum_spec heq
      cases h
      exact ⟨h1, h2, h3, h4, h5, fun i hi => h6 i hi⟩

theorem drainArray_spec {schema : Schema} {p : PState} {p' : PState}
    (h : drainArray schema p = some p') :
    p'.level = p.level ∧ p'.cur_col = p.cur_col ∧
    p'.record_complete = p.record_complete ∧ p'.warned = p.warned ∧
    p'.record_started = true ∧
    (∀ i : Nat, p.cur_col ≠ some i → p'.values[i]? = p.values[i]?) := by
  unfold drainArray at h
  split at h
  · obtain ⟨h1, h2, h3, h4, h5, h6⟩ := store_null_spec h
    exact ⟨h1, h2, h3, h4, h5, fun i _ => by rw [h6]⟩
  · split at h
    · cases h
    · rename_i a heq
      obtain ⟨h1, h2, h3, h4, h5, h6, h7⟩ := store_datum_spec heq
      cases h
      exact ⟨h1, h2, h3, h4, h5, fun i hi => h6 i hi⟩

theorem endMapClose_spec {schema : Schema} {p : PState} {p' : PState}
    (h : endMapClose schema p = some p') :
    p'.level = p.level ∧ p'.cur_col = p.cur_col ∧
    p'.record_complete = p.record_complete ∧ p'.warned = p.warned ∧
    p'.record_started = p.record_started ∧ p'.values = p.values := by
  obtain ⟨vals, cc, rc, rs, lv, js, ar, wn⟩ := p
  simp only [endMapClose] at h
  repeat' split at h
  all_goals cases h
  all_goals simp_all

theorem endArrayClose_spec {schema : Schema} {p : PState} {p' : PState}
    (h : endArrayClose schema p = some p') :
    p'.level = p.level ∧ p'.cur_col = p.cur_col ∧
    p'.record_complete = p.record_complete ∧
    p'.record_started = p.record_started ∧ p'.values = p.values := by
  obtain ⟨vals, cc, rc, rs, lv, js, ar, wn⟩ := p
  simp only [endArrayClose] at h
  repeat' split at h
  all_goals cases h
  all_goals simp_all

theorem endMapFinish_spec {schema : Schema} {p : PState} {p' : PState}
    (h : endMapFinish schema p = some p') :
    p'.level = p.level ∧ p'.cur_col = p.cur_col ∧
    (p.level = 0 → p'.record_complete = true) ∧
    (p.level ≠ 0 → p'.record_complete = p.record_complete) ∧
    (∀ i : Nat, p.cur_col ≠ some i → p'.values[i]? = p.values[i]?) := by
  unfold endMapFinish at h
  split at h
  · rename_i hl
    obtain ⟨h1, h2, h3, h4, h5, h6⟩ := drainJson_spec h
    exact ⟨h1, h2, fun h0 => absurd h0 (by omega), fun _ => h3, h6⟩
  · split at h
    · rename_i hl hl0
      cases h
      exact ⟨rfl, rfl, fun _ => rfl, fun hn => absurd hl0 hn, fun i _ => rfl⟩
    · rename_i hl hl0
      cases h
      exact ⟨rfl, rfl, fun h0 => absurd h0 hl0, fun _ => rfl, fun i _ => rfl⟩

theorem endArrayFinish_spec {schema : Schema} {p : PState} {p' : PState}
    (h : endArrayFinish schema p = some p') :
    p'.level = p.level ∧ p'.cur_col = p.cur_col ∧
    p'.record_complete = p.record_complete ∧
    (∀ i : Nat, p.cur_col ≠ some i → p'.values[i]? = p.values[i]?) := by
  unfold endArrayFinish at h
  split at h
  · split at h
    · cases h
    · split at h
      · obtain ⟨h1, h2, h3, h4, h5, h6⟩ := drainJson_spec h
        exact ⟨h1, h2, h3, h6⟩
      · split at h
        · obtain ⟨h1, h2, h3, h4, h5, h6⟩ := drainArray_spec h
          exact ⟨h1, h2, h3, h6⟩
        · cases h
          exact ⟨rfl, rfl, rfl, fun i _ => rfl⟩
  · cases h
    exact ⟨rfl, rfl, rfl, fun i _ => rfl⟩

theorem cb_end_map_spec {schema : Schema} {p : PState} {p' : PState}
    (h : cb_end_map schema p = some p') :
    p'.level = p.level - 1 ∧ p'.cur_col = p.cur_col ∧
    (p.level = 1 → p'.record_complete = true) ∧
    (p.level ≠ 1 → p'.record_complete = p.record_complete) ∧
    (∀ i : Nat, p.cur_col ≠ some i → p'.values[i]? = p.values[i]?) := by
  unfold cb_end_map at h
  split at h
  · cases h
  · rename_i q heq
    obtain ⟨e1, e2, e3, e4, e5, e6⟩ := endMapClose_spec heq
    obtain ⟨f1, f2, f3, f4, f5⟩ := endMapFinish_spec h
    simp only at f1 f2 f3 f4 f5
    refine ⟨by rw [f1]; rw [e1], by rw [f2, e2], ?_, ?_, ?_⟩
    · intro h1
      exact f3 (by rw [e1, h1]; ring)
    · intro h1
      rw [f4 (by rw [e1]; omega), e3]
    · intro i hi
      rw [f5 i (by rw [e2]; exact hi), e6]

theorem cb_end_array_spec {schema : Schema} {p : PState} {p' : PState}
    (h : cb_end_array schema p = some p') :
    p'.level = p.level - 1 ∧ p'.cur_col = p.cur_col ∧
    p'.record_complete = p.record_complete ∧
    (∀ i : Nat, p.cur_col ≠ some i → p'.values[i]? = p.values[i]?) := by
  unfold cb_end_array at h
  split at h
  · cases h
  · rename_i q heq
    obtain ⟨e1, e2, e3, e5, e6⟩ := endArrayClose_spec heq
    obtain ⟨f1, f2, f3, f4⟩ := endArrayFinish_spec h
    simp only at f1 f2 f3 f4
    refine ⟨by rw [f1, e1], by rw [f2, e2], by rw [f3, e3], ?_⟩
    intro i hi
    rw [f4 i (by rw [e2]; exact hi), e6]




theorem cb_map_key_spec {schema : Schema} {p : PState} {s : String} {p' : PState}
    (h : cb_map_key schema p s = some p') :
    p'.level = p.level ∧ p'.record_complete = p.record_complete ∧
    p'.record_started = p.record_started ∧ p'.values = p.values ∧
    (p.level = 1 → p'.cur_col = lookupColumn schema s) ∧
    (p.level ≠ 1 → p'.cur_col = p.cur_col) := by
  obtain ⟨vals, cc, rc, rs, lv, js, ar, wn⟩ := p
  simp only [cb_map_key] at h
  repeat' split at h
  all_goals cases h
  all_goals simp_all

theorem cb_start_map_cancel_spec {schema : Schema} {p q : PState}
    (h : cb_start_map schema p = .cancel q) :
    q = p ∧ p.level = 0 ∧ p.record_complete = true := by
  obtain ⟨vals, cc, rc, rs, lv, js, ar, wn⟩ := p
  simp only [cb_start_map] at h
  repeat' split at h
  all_goals cases h
  all_goals simp_all

theorem cb_start_map_ok_spec {schema : Schema} {p p' : PState}
    (h : cb_start_map schema p = .ok p') :
    p'.level = p.level + 1 ∧ p'.record_complete = p.record_complete ∧
    p'.record_started = p.record_started ∧ p'.cur_col = p.cur_col ∧
    (p.level = 0 → p'.values = List.replicate schema.length none) ∧
    (p.level ≠ 0 → p'.values = p.values) := by
  obtain ⟨vals, cc, rc, rs, lv, js, ar, wn⟩ := p
  simp only [cb_start_map] at h
  repeat' split at h
  all_goals cases h
  all_goals simp_all

theorem cb_start_array_spec {schema : Schema} {p p' : PState}
    (h : cb_start_array schema p = some p') :
    p'.level = p.level + 1 ∧ p'.record_complete = p.record_complete ∧
    p'.record_started = p.record_started ∧ p'.cur_col = p.cur_col ∧
    p'.values = p.values ∧ p'.warned = p.warned := by
  obtain ⟨vals, cc, rc, rs, lv, js, ar, wn⟩ := p
  simp only [cb_start_array] at h
  repeat' split at h
  all_goals cases h
  all_goals simp_all

theorem oStep_ok {x : Option PState} {p' : PState} (h : oStep x = .ok p') :
    x = some p' := by
  cases x
  · simp [oStep] at h
  · simp only [oStep, Step.ok.injEq] at h
    simp [h]

theorem oStep_err {x : Option PState} (h : oStep x = .err) : x = none := by
  cases x
  · rfl
  · simp [oStep] at h

theorem pstep_cancel_spec {schema : Schema} {p : PState} {e : JEvent} {q : PState}
    (h : pstep schema p e = .cancel q) :
    q = p ∧ e = .startMap ∧ p.level = 0 ∧ p.record_complete = true := by
  cases e <;> simp only [pstep, oStep] at h
  all_goals try (split at h <;> cases h)
  obtain ⟨h1, h2, h3⟩ := cb_start_map_cancel_spec h
  exact ⟨h1, rfl, h2, h3⟩

theorem pstep_ok_level {schema : Schema} {p : PState} {e : JEvent} {p' : PState}
    (h : pstep schema p e = .ok p') :
    p'.level = p.level + edelta e := by
  cases e <;> simp only [pstep, edelta] at h ⊢
  case jnull => simpa using (store_null_spec (oStep_ok h)).1
  case jboolean => simpa using (store_datum_spec (oStep_ok h)).1
  case jnumber => simpa using (store_datum_spec (oStep_ok h)).1
  case jstring => simpa using (store_datum_spec (oStep_ok h)).1
  case mapKey => simpa using (cb_map_key_spec (oStep_ok h)).1
  case startMap => exact (cb_start_map_ok_spec h).1
  case endMap =>
    have := (cb_end_map_spec (oStep_ok h)).1
    omega
  case startArray => exact (cb_start_array_spec (oStep_ok h)).1
  case endArray =>
    have := (cb_end_array_spec (oStep_ok h)).1
    omega

theorem pstep_ok_complete {schema : Schema} {p : PState} {e : JEvent} {p' : PState}
    (h : pstep schema p e = .ok p') :
    (¬ (e = .endMap ∧ p.level = 1) → p'.record_complete = p.record_complete) ∧
    (e = .endMap → p.level = 1 → p'.record_complete = true) := by
  cases e <;> simp only [pstep] at h
  case jnull =>
    simp [(store_null_spec (oStep_ok h)).2.2.1]
  case jboolean =>
    simp [(store_datum_spec (oStep_ok h)).2.2.1]
  case jnumber =>
    simp [(store_datum_spec (oStep_ok h)).2.2.1]
  case jstring =>
    simp [(store_datum_spec (oStep_ok h)).2.2.1]
  case mapKey =>
    simp [(cb_map_key_spec (oStep_ok h)).2.1]
  case startMap =>
    simp [(cb_start_map_ok_spec h).2.1]
  case endMap =>
    obtain ⟨h1, h2, h3, h4, h5⟩ := cb_end_map_spec (oStep_ok h)
    constructor
    · intro hn
      exact h4 (by simpa using hn)
    · intro _ hl
      exact h3 hl
  case startArray =>
    simp [(cb_start_array_spec (oStep_ok h)).2.1]
  case endArray =>
    simp [(cb_end_array_spec (oStep_ok h)).2.2.1]


theorem runEvents_append (schema : Schema) (p : PState) (a b : List JEvent) :
    runEvents schema p (a ++ b) =
      match runEvents schema p a with
      | .ok q => runEvents schema q b
      | r => r := by
  induction a generalizing p with
  | nil => simp [runEvents]
  | cons e es ih =>
    simp only [List.cons_append, runEvents]
    cases pstep schema p e <;> simp [ih]

theorem runEvents_ok_level {schema : Schema} {p : PState} {evs : List JEvent} {q : PState}
    (h : runEvents schema p evs = .ok q) :
    q.level = p.level + dsum evs := by
  induction evs generalizing p with
  | nil =>
    simp only [runEvents, Step.ok.injEq] at h
    simp [← h, dsum]
  | cons e es ih =>
    simp only [runEvents] at h
    cases hs : pstep schema p e with
    | ok p1 =>
      rw [hs] at h
      have h1 := pstep_ok_level hs
      have h2 := ih h
      simp only [dsum, List.map_cons, List.sum_cons] at h2 ⊢
      rw [h2, h1]
      ring
    | cancel p1 => rw [hs] at h; cases h
    | err => rw [hs] at h; cases h

theorem runEvents_complete_false {schema : Schema} {p : PState} {evs : List JEvent} {q : PState}
    (h : runEvents schema p evs = .ok q)
    (hc : p.record_complete = false)
    (hpos : ∀ a b, evs = a ++ b → a ≠ [] → 1 ≤ p.level + dsum a) :
    q.record_complete = false := by
  induction evs generalizing p with
  | nil =>
    simp only [runEvents, Step.ok.injEq] at h
    rw [← h]; exact hc
  | cons e es ih =>
    simp only [runEvents] at h
    cases hs : pstep schema p e with
    | ok p1 =>
      rw [hs] at h
      have hlv := pstep_ok_level hs
      have hone : (1 : Int) ≤ p.level + dsum [e] := hpos [e] es rfl (by simp)
      have hne : ¬ (e = .endMap ∧ p.level = 1) := by
        rintro ⟨he, hl⟩
        subst he
        simp [dsum, edelta] at hone
        omega
      have hc1 : p1.record_complete = false := by
        rw [(pstep_ok_complete hs).1 hne]; exact hc
      refine ih h hc1 ?_
      intro a b hab ha
      have := hpos (e :: a) b (by simp [hab]) (by simp)
      simp only [dsum, List.map_cons, List.sum_cons] at this ⊢
      have hd : dsum [e] = edelta e := by simp [dsum]
      omega
    | cancel p1 => rw [hs] at h; cases h
    | err => rw [hs] at h; cases h


theorem dsum_cons (e : JEvent) (es : List JEvent) : dsum (e :: es) = edelta e + dsum es := by
  simp [dsum]

theorem dsum_append (a b : List JEvent) : dsum (a ++ b) = dsum a + dsum b := by
  simp [dsum]

theorem minPre_nonpos (evs : List JEvent) : minPre evs ≤ 0 := by
  cases evs <;> simp [minPre]

theorem minPre_append (a b : List JEvent) :
    minPre (a ++ b) = min (minPre a) (dsum a + minPre b) := by
  induction a with
  | nil =>
    have := minPre_nonpos b
    simp only [List.nil_append, minPre, dsum, List.map_nil, List.sum_nil]
    omega
  | cons e es ih =>
    simp only [List.cons_append, minPre, dsum_cons, List.append_eq]
    rw [ih]
    omega

theorem minPre_le_dsum_split {a b evs : List JEvent} (h : evs = a ++ b) :
    minPre evs ≤ dsum a := by
  subst h
  rw [minPre_append]
  have := minPre_nonpos b
  omega

mutual
theorem jval_events_balance (v : JVal) : dsum v.events = 0 ∧ minPre v.events = 0 := by
  cases v with
  | vnull => constructor <;> rfl
  | vbool b => constructor <;> rfl
  | vnum s => constructor <;> rfl
  | vstr s => constructor <;> rfl
  | vobj ms =>
    obtain ⟨h1, h2⟩ := jmembers_events_balance ms
    simp only [JVal.events, dsum_cons, dsum_append, minPre, minPre_append, h1, h2]
    constructor <;> simp [dsum, minPre, edelta] <;> omega
  | varr es =>
    obtain ⟨h1, h2⟩ := jelems_events_balance es
    simp only [JVal.events, dsum_cons, dsum_append, minPre, minPre_append, h1, h2]
    constructor <;> simp [dsum, minPre, edelta] <;> omega

theorem jmembers_events_balance (ms : JMembers) : dsum ms.events = 0 ∧ minPre ms.events = 0 := by
  cases ms with
  | nil => constructor <;> rfl
  | cons k v rest =>
    obtain ⟨h1, h2⟩ := jval_events_balance v
    obtain ⟨h3, h4⟩ := jmembers_events_balance rest
    simp only [JMembers.events, dsum_cons, dsum_append, minPre, minPre_append, h1, h2, h3, h4]
    constructor <;> simp [edelta] <;> omega

theorem jelems_events_balance (es : JElems) : dsum es.events = 0 ∧ minPre es.events = 0 := by
  cases es with
  | nil => constructor <;> rfl
  | cons v rest =>
    obtain ⟨h1, h2⟩ := jval_events_balance v
    obtain ⟨h3, h4⟩ := jelems_events_balance rest
    simp only [JElems.events, dsum_append, minPre_append, h1, h2, h3, h4]
    constructor <;> omega
end


theorem vobj_events_pos (ms : JMembers) :
    ∀ a b : List JEvent, (JVal.vobj ms).events = a ++ b → a ≠ [] → b ≠ [] →
      1 ≤ dsum a := by
  intro a b hab ha hb
  rw [JVal.events] at hab
  cases a with
  | nil => exact absurd rfl ha
  | cons x a2 =>
    rw [List.cons_append] at hab
    injection hab with hx htl
    subst hx
    rcases List.eq_nil_or_concat b with rfl | ⟨b2, c, hbc⟩
    · exact absurd rfl hb
    · subst hbc
      rw [List.concat_eq_append, ← List.append_assoc] at htl
      obtain ⟨hpre, _⟩ := List.append_inj' htl rfl
      have hmin : minPre ms.events ≤ dsum a2 := minPre_le_dsum_split (a := a2) (b := b2) hpre
      have hbal := (jmembers_events_balance ms).2
      rw [dsum_cons]
      simp only [edelta]
      omega

theorem runEvents_vobj_final {schema : Schema} {p : PState} {ms : JMembers} {q : PState}
    (h : runEvents schema p (JVal.vobj ms).events = .ok q)
    (hl : p.level = 0) :
    q.level = 0 ∧ q.record_complete = true := by
  have hev : (JVal.vobj ms).events = (.startMap :: ms.events) ++ [.endMap] := by
    rw [JVal.events, List.cons_append]
  rw [hev, runEvents_append] at h
  cases hpre : runEvents schema p (.startMap :: ms.events) with
  | ok q1 =>
    rw [hpre] at h
    have hq1 : q1.level = 1 := by
      have := runEvents_ok_level hpre
      rw [dsum_cons] at this
      have hbal := (jmembers_events_balance ms).1
      simp only [edelta] at this
      omega
    simp only [runEvents] at h
    cases hstep : pstep schema q1 JEvent.endMap with
    | ok q2 =>
      rw [hstep] at h
      simp only [runEvents, Step.ok.injEq] at h
      subst h
      have hcp := (pstep_ok_complete hstep).2 rfl hq1
      have hlv := pstep_ok_level hstep
      simp only [edelta] at hlv
      exact ⟨by omega, hcp⟩
    | cancel q2 => rw [hstep] at h; cases h
    | err => rw [hstep] at h; cases h
  | cancel q1 => rw [hpre] at h; cases h
  | err => rw [hpre] at h; cases h



theorem store_datum_rs {schema : Schema} {v : List (Option String)} {c : Option Nat}
    {r : Bool} {l : Int} {j a : String} {w : Bool} (rs1 rs2 : Bool) (s : String) (b : Bool) :
    store_datum schema ⟨v, c, r, rs1, l, j, a, w⟩ s b =
    store_datum schema ⟨v, c, r, rs2, l, j, a, w⟩ s b := rfl

theorem store_null_rs {schema : Schema} {v : List (Option String)} {c : Option Nat}
    {r : Bool} {l : Int} {j a : String} {w : Bool} (rs1 rs2 : Bool) :
    store_null schema ⟨v, c, r, rs1, l, j, a, w⟩ =
    store_null schema ⟨v, c, r, rs2, l, j, a, w⟩ := rfl

theorem drainJson_rs {schema : Schema} {v : List (Option String)} {c : Option Nat}
    {r : Bool} {l : Int} {j a : String} {w : Bool} (rs1 rs2 : Bool) :
    drainJson schema ⟨v, c, r, rs1, l, j, a, w⟩ =
    drainJson schema ⟨v, c, r, rs2, l, j, a, w⟩ := rfl

theorem drainArray_rs {schema : Schema} {v : List (Option String)} {c : Option Nat}
    {r : Bool} {l : Int} {j a : String} {w : Bool} (rs1 rs2 : Bool) :
    drainArray schema ⟨v, c, r, rs1, l, j, a, w⟩ =
    drainArray schema ⟨v, c, r, rs2, l, j, a, w⟩ := rfl


theorem cb_map_key_rs {schema : Schema} {v : List (Option String)} {c : Option Nat}
    {r : Bool} {l : Int} {j a : String} {w : Bool} (rs1 rs2 : Bool) (s : String) :
    (cb_map_key schema ⟨v, c, r, rs1, l, j, a, w⟩ s).map eraseStarted =
    (cb_map_key schema ⟨v, c, r, rs2, l, j, a, w⟩ s).map eraseStarted := by
  simp only [cb_map_key, get_column]
  repeat' split
  all_goals rfl

theorem cb_start_map_rs {schema : Schema} {v : List (Option String)} {c : Option Nat}
    {r : Bool} {l : Int} {j a : String} {w : Bool} (rs1 rs2 : Bool) :
    stepErase (cb_start_map schema ⟨v, c, r, rs1, l, j, a, w⟩) =
    stepErase (cb_start_map schema ⟨v, c, r, rs2, l, j, a, w⟩) := by
  simp only [cb_start_map, get_column]
  split_ifs <;> try rfl
  all_goals rcases c with _ | i
  all_goals try rfl
  all_goals rcases hg : schema[i]? with _ | col
  all_goals simp only [hg]
  all_goals try rfl
  all_goals split_ifs <;> rfl

theorem cb_start_array_rs {schema : Schema} {v : List (Option String)} {c : Option Nat}
    {r : Bool} {l : Int} {j a : String} {w : Bool} (rs1 rs2 : Bool) :
    (cb_start_array schema ⟨v, c, r, rs1, l, j, a, w⟩).map eraseStarted =
    (cb_start_array schema ⟨v, c, r, rs2, l, j, a, w⟩).map eraseStarted := by
  simp only [cb_start_array, get_column]
  repeat' split
  all_goals rfl

theorem endMapClose_rs (schema : Schema) {v : List (Option String)} {c : Option Nat}
    {r : Bool} {l : Int} {j a : String} {w : Bool} (rs1 rs2 : Bool) :
    (endMapClose schema ⟨v, c, r, rs1, l, j, a, w⟩).map eraseStarted =
    (endMapClose schema ⟨v, c, r, rs2, l, j, a, w⟩).map eraseStarted := by
  simp only [endMapClose, get_column]
  repeat' split
  all_goals rfl

theorem endArrayClose_rs (schema : Schema) {v : List (Option String)} {c : Option Nat}
    {r : Bool} {l : Int} {j a : String} {w : Bool} (rs1 rs2 : Bool) :
    (endArrayClose schema ⟨v, c, r, rs1, l, j, a, w⟩).map eraseStarted =
    (endArrayClose schema ⟨v, c, r, rs2, l, j, a, w⟩).map eraseStarted := by
  simp only [endArrayClose, get_column]
  repeat' split
  all_goals rfl

theorem endMapFinish_rs {schema : Schema} {v : List (Option String)} {c : Option Nat}
    {r : Bool} {l : Int} {j a : String} {w : Bool} (rs1 rs2 : Bool) :
    (endMapFinish schema ⟨v, c, r, rs1, l, j, a, w⟩).map eraseStarted =
    (endMapFinish schema ⟨v, c, r, rs2, l, j, a, w⟩).map eraseStarted := by
  simp only [endMapFinish]
  repeat' split
  all_goals try rfl
  all_goals rw [drainJson_rs rs1 rs2]

theorem endArrayFinish_rs {schema : Schema} {v : List (Option String)} {c : Option Nat}
    {r : Bool} {l : Int} {j a : String} {w : Bool} (rs1 rs2 : Bool) :
    (endArrayFinish schema ⟨v, c, r, rs1, l, j, a, w⟩).map eraseStarted =
    (endArrayFinish schema ⟨v, c, r, rs2, l, j, a, w⟩).map eraseStarted := by
  simp only [endArrayFinish, get_column]
  repeat' split
  all_goals try rfl
  all_goals first
    | rw [drainJson_rs rs1 rs2]
    | rw [drainArray_rs rs1 rs2]


theorem oStep_erase (o : Option PState) :
    stepErase (oStep o) = oStep (o.map eraseStarted) := by
  cases o <;> rfl

theorem cb_end_map_rs {schema : Schema} {v : List (Option String)} {c : Option Nat}
    {r : Bool} {l : Int} {j a : String} {w : Bool} (rs1 rs2 : Bool) :
    (cb_end_map schema ⟨v, c, r, rs1, l, j, a, w⟩).map eraseStarted =
    (cb_end_map schema ⟨v, c, r, rs2, l, j, a, w⟩).map eraseStarted := by
  unfold cb_end_map
  have h := endMapClose_rs schema (v := v) (c := c) (r := r) (l := l)
    (j := j) (a := a) (w := w) rs1 rs2
  cases h1 : endMapClose schema ⟨v, c, r, rs1, l, j, a, w⟩ with
  | none =>
    cases h2 : endMapClose schema ⟨v, c, r, rs2, l, j, a, w⟩ with
    | none => rfl
    | some q2 => rw [h1, h2] at h; simp at h
  | some q1 =>
    cases h2 : endMapClose schema ⟨v, c, r, rs2, l, j, a, w⟩ with
    | none => rw [h1, h2] at h; simp at h
    | some q2 =>
      rw [h1, h2] at h
      simp only [Option.map_some'] at h
      obtain ⟨v1, c1, r1, s1, l1, j1, a1, w1⟩ := q1
      obtain ⟨v2, c2, r2, s2, l2, j2, a2, w2⟩ := q2
      simp only [Option.some.injEq, eraseStarted, PState.mk.injEq, and_true, true_and] at h
      obtain ⟨hv, hc, hr, hl, hj, ha, hw⟩ := h
      subst hv hc hr hl hj ha hw
      exact endMapFinish_rs s1 s2

theorem cb_end_array_rs {schema : Schema} {v : List (Option String)} {c : Option Nat}
    {r : Bool} {l : Int} {j a : String} {w : Bool} (rs1 rs2 : Bool) :
    (cb_end_array schema ⟨v, c, r, rs1, l, j, a, w⟩).map eraseStarted =
    (cb_end_array schema ⟨v, c, r, rs2, l, j, a, w⟩).map eraseStarted := by
  unfold cb_end_array
  have h := endArrayClose_rs schema (v := v) (c := c) (r := r) (l := l)
    (j := j) (a := a) (w := w) rs1 rs2
  cases h1 : endArrayClose schema ⟨v, c, r, rs1, l, j, a, w⟩ with
  | none =>
    cases h2 : endArrayClose schema ⟨v, c, r, rs2, l, j, a, w⟩ with
    | none => rfl
    | some q2 => rw [h1, h2] at h; simp at h
  | some q1 =>
    cases h2 : endArrayClose schema ⟨v, c, r, rs2, l, j, a, w⟩ with
    | none => rw [h1, h2] at h; simp at h
    | some q2 =>
      rw [h1, h2] at h
      simp only [Option.map_some'] at h
      obtain ⟨v1, c1, r1, s1, l1, j1, a1, w1⟩ := q1
      obtain ⟨v2, c2, r2, s2, l2, j2, a2, w2⟩ := q2
      simp only [Option.some.injEq, eraseStarted, PState.mk.injEq, and_true, true_and] at h
      obtain ⟨hv, hc, hr, hl, hj, ha, hw⟩ := h
      subst hv hc hr hl hj ha hw
      exact endArrayFinish_rs s1 s2

theorem pstep_rs (schema : Schema) {p q : PState}
    (hpq : eraseStarted p = eraseStarted q) (e : JEvent) :
    stepErase (pstep schema p e) = stepErase (pstep schema q e) := by
  obtain ⟨v1, c1, r1, s1, l1, j1, a1, w1⟩ := p
  obtain ⟨v2, c2, r2, s2, l2, j2, a2, w2⟩ := q
  simp only [eraseStarted, PState.mk.injEq, and_true, true_and] at hpq
  obtain ⟨hv, hc, hr, hl, hj, ha, hw⟩ := hpq
  subst hv hc hr hl hj ha hw
  cases e <;> simp only [pstep, oStep_erase]
  case jnull => rw [store_null_rs s1 s2]
  case jboolean b => rw [store_datum_rs s1 s2]
  case jnumber s => rw [store_datum_rs s1 s2]
  case jstring s => rw [store_datum_rs s1 s2]
  case mapKey s => rw [cb_map_key_rs s1 s2]
  case startMap => exact cb_start_map_rs s1 s2
  case endMap => rw [cb_end_map_rs s1 s2]
  case startArray => rw [cb_start_array_rs s1 s2]
  case endArray => rw [cb_end_array_rs s1 s2]

theorem runEvents_rs (schema : Schema) {p q : PState}
    (hpq : eraseStarted p = eraseStarted q) (evs : List JEvent) :
    stepErase (runEvents schema p evs) = stepErase (runEvents schema q evs) := by
  induction evs generalizing p q with
  | nil => simp only [runEvents, stepErase, hpq]
  | cons e es ih =>
    have hstep := pstep_rs schema hpq e
    simp only [runEvents]
    cases h1 : pstep schema p e <;> cases h2 : pstep schema q e <;>
        rw [h1, h2] at hstep <;>
        simp only [stepErase, Step.ok.injEq, Step.cancel.injEq] at hstep <;>
      first
        | exact ih hstep
        | (simp only [stepErase, Step.cancel.injEq]; exact hstep)
        | rfl
        | exact absurd hstep (by simp)

theorem yajlRun_rs (schema : Schema) {L : LexState} {p q : PState}
    (hpq : eraseStarted p = eraseStarted q) (cs : List Char) :
    yErase (yajlRun schema L p cs) = yErase (yajlRun schema L q cs) := by
  induction cs generalizing L p q with
  | nil => simp only [yajlRun, yErase, hpq]
  | cons ch cs ih =>
    simp only [yajlRun]
    cases lexStep L ch with
    | none => rfl
    | some Le =>
      obtain ⟨L1, evs⟩ := Le
      have hrun := runEvents_rs schema hpq evs
      cases h1 : runEvents schema p evs <;> cases h2 : runEvents schema q evs <;>
          rw [h1, h2] at hrun <;>
          simp only [stepErase, Step.ok.injEq, Step.cancel.injEq] at hrun
      case ok.ok p1 q1 =>
        have hy := ih (L := L1) hrun
        cases hy1 : yajlRun schema L1 p1 cs <;> cases hy2 : yajlRun schema L1 q1 cs <;>
          rw [hy1, hy2] at hy <;> simp_all [yErase]
      all_goals simp_all [yErase]


theorem lexChars_append_ok {L : LexState} {a b : List Char} {L1 L2 : LexState}
    {e1 e2 : List JEvent}
    (h1 : lexChars L a = some (L1, e1)) (h2 : lexChars L1 b = some (L2, e2)) :
    lexChars L (a ++ b) = some (L2, e1 ++ e2) := by
  induction a generalizing L e1 with
  | nil =>
    simp only [lexChars, Option.some.injEq, Prod.mk.injEq] at h1
    obtain ⟨g1, g2⟩ := h1
    subst g1; subst g2
    simpa using h2
  | cons ch cs ih =>
    simp only [lexChars] at h1
    split at h1
    · cases h1
    · rename_i La ea heq
      split at h1
      · cases h1
      · rename_i Lb eb heq2
        simp only [Option.some.injEq, Prod.mk.injEq] at h1
        obtain ⟨g1, g2⟩ := h1
        subst g1; subst g2
        have h3 := ih heq2
        simp only [List.cons_append, lexChars, heq, List.append_eq, h3, List.append_assoc]

theorem lexChars_append_split {L : LexState} {a b : List Char} {L2 : LexState}
    {evs : List JEvent}
    (h : lexChars L (a ++ b) = some (L2, evs)) :
    ∃ L1 e1 e2, lexChars L a = some (L1, e1) ∧ lexChars L1 b = some (L2, e2) ∧
      evs = e1 ++ e2 := by
  induction a generalizing L evs with
  | nil =>
    exact ⟨L, [], evs, rfl, by simpa using h, rfl⟩
  | cons ch cs ih =>
    rw [List.cons_append] at h
    simp only [lexChars] at h
    split at h
    · cases h
    · rename_i La ea heq
      split at h
      · cases h
      · rename_i Lb eb heq2
        simp only [Option.some.injEq, Prod.mk.injEq] at h
        obtain ⟨g1, g2⟩ := h
        subst g1; subst g2
        obtain ⟨L1, f1, f2, k1, k2, k3⟩ := ih heq2
        refine ⟨L1, ea ++ f1, f2, ?_, k2, by rw [k3, List.append_assoc]⟩
        simp only [lexChars, heq, k1]

theorem yajlRun_ok_of_events {schema : Schema} {L : LexState} {p : PState}
    {cs : List Char} {L' : LexState} {evs : List JEvent} {p' : PState}
    (hlex : lexChars L cs = some (L', evs))
    (hrun : runEvents schema p evs = .ok p') :
    yajlRun schema L p cs = .ok L' p' := by
  induction cs generalizing L p evs with
  | nil =>
    simp only [lexChars, Option.some.injEq, Prod.mk.injEq] at hlex
    obtain ⟨h1, h2⟩ := hlex
    subst h1; subst h2
    simp only [runEvents, Step.ok.injEq] at hrun
    subst hrun
    rfl
  | cons ch cs ih =>
    simp only [lexChars] at hlex
    split at hlex
    · cases hlex
    · rename_i La ea heq
      split at hlex
      · cases hlex
      · rename_i Lb eb heq2
        simp only [Option.some.injEq, Prod.mk.injEq] at hlex
        obtain ⟨h1, h2⟩ := hlex
        subst h1; subst h2
        rw [runEvents_append] at hrun
        cases h1 : runEvents schema p ea with
        | ok p1 =>
          rw [h1] at hrun
          simp only [yajlRun, heq, h1, ih heq2 hrun]
        | cancel q => rw [h1] at hrun; cases hrun
        | err => rw [h1] at hrun; cases hrun

theorem yajlRun_extend_ok {schema : Schema} {L : LexState} {p : PState}
    {a : List Char} (b : List Char) {L1 : LexState} {p1 : PState}
    {L2 : LexState} {p2 : PState}
    (ha : yajlRun schema L p a = .ok L1 p1)
    (hb : yajlRun schema L1 p1 b = .ok L2 p2) :
    yajlRun schema L p (a ++ b) = .ok L2 p2 := by
  induction a generalizing L p with
  | nil =>
    simp only [yajlRun, YRes.ok.injEq] at ha
    obtain ⟨h1, h2⟩ := ha
    subst h1; subst h2
    simpa using hb
  | cons ch cs ih =>
    rw [List.cons_append]
    simp only [yajlRun, List.append_eq] at ha ⊢
    split at ha
    · cases ha
    · rename_i La ea heq
      split at ha
      · cases ha
      · cases ha
      · rename_i pa hrun
        split at ha
        · cases ha
        · simp [ih ha]


theorem yajlRun_extend_cancel {schema : Schema} {L : LexState} {p : PState}
    {a b : List Char} {L1 : LexState} {p1 : PState} {n : Nat} {q : PState}
    (ha : yajlRun schema L p a = .ok L1 p1)
    (hb : yajlRun schema L1 p1 b = .canceled n q) :
    yajlRun schema L p (a ++ b) = .canceled (a.length + n) q := by
  induction a generalizing L p with
  | nil =>
    simp only [yajlRun, YRes.ok.injEq] at ha
    obtain ⟨h1, h2⟩ := ha
    subst h1; subst h2
    simpa using hb
  | cons ch cs ih =>
    rw [List.cons_append]
    simp only [yajlRun, List.append_eq] at ha ⊢
    split at ha
    · cases ha
    · rename_i La ea heq
      split at ha
      · cases ha
      · cases ha
      · rename_i pa hrun
        split at ha
        · cases ha
        · rw [ih ha]
          simp only [List.length_cons]
          congr 1
          omega

theorem yajlRun_cancel_head {schema : Schema} {p : PState} (rest : List Char)
    (hl : p.level = 0) (hc : p.record_complete = true) :
    yajlRun schema lexInit p ('{' :: rest) = .canceled 1 p := by
  have h1 : lexStep lexInit '{' = some (⟨.tnone, .objStart, [true]⟩, [.startMap]) := rfl
  have h2 : runEvents schema p [.startMap] = .cancel p := by
    simp only [runEvents, pstep, cb_start_map, hl, hc]
    simp
  simp only [yajlRun, h1, h2]



theorem qp_complete_call (schema : Schema) (stream : List Char) {L0 : LexState}
    {p0 : PState} {loc size : Nat} {schars rest : List Char} {e : List JEvent}
    {pf : PState}
    (hchunk : (stream.drop loc).take (size - loc) = schars ++ rest)
    (hlex : lexChars L0 schars = some (lexInit, e))
    (hrun : runEvents schema p0 e = .ok pf)
    (hcomp : pf.record_complete = true)
    (hlevel : pf.level = 0)
    (hrest : rest = [] ∨ rest.head? = some '{')
    (hloc : loc < size) :
    quasar_parse schema stream L0 p0 loc size =
      some ⟨.recordComplete, lexInit, clearFlags pf, loc + schars.length,
        some pf.values⟩ := by
  have hy : yajlRun schema L0 p0 schars = .ok lexInit pf :=
    yajlRun_ok_of_events hlex hrun
  rcases hrest with rfl | hhead
  · rw [List.append_nil] at hchunk
    simp only [quasar_parse, if_pos hloc, hchunk, hy]
    simp [qpFinish, hcomp, clearFlags]
  · cases rest with
    | nil => cases hhead
    | cons c rest2 =>
      simp only [List.head?_cons, Option.some.injEq] at hhead
      subst hhead
      have hcan : yajlRun schema L0 p0 (schars ++ '{' :: rest2) =
          .canceled (schars.length + 1) pf :=
        yajlRun_extend_cancel hy (yajlRun_cancel_head rest2 hlevel hcomp)
      simp only [quasar_parse, if_pos hloc, hchunk, hcan]
      simp [qpFinish, hcomp, clearFlags]

theorem qp_partial_call (schema : Schema) (stream : List Char) {p : PState}
    {loc size : Nat} {s1 : List Char} {Lm : LexState} {e1 : List JEvent} {pm : PState}
    (hchunk : (stream.drop loc).take (size - loc) = s1)
    (hlex : lexChars lexInit s1 = some (Lm, e1))
    (hrun : runEvents schema p e1 = .ok pm)
    (hcomp : pm.record_complete = false)
    (hloc : loc < size) :
    quasar_parse schema stream lexInit p loc size =
      some ⟨if pm.record_started then .recordStarted else .noRecord, Lm,
        clearFlags pm, loc + s1.length, none⟩ := by
  have hy : yajlRun schema lexInit p s1 = .ok Lm pm :=
    yajlRun_ok_of_events hlex hrun
  simp only [quasar_parse, if_pos hloc, hchunk, hy]
  simp [qpFinish, hcomp, clearFlags]


theorem joinSegs_cons (s : List Char) (ms : JMembers)
    (rest : List (List Char × JMembers)) :
    joinSegs ((s, ms) :: rest) = s ++ joinSegs rest := by
  simp [joinSegs]

theorem segOk_ne_nil {s : List Char} {ms : JMembers} (h : SegOk s ms) : s ≠ [] := by
  intro hs
  subst hs
  cases h.1

theorem joinSegs_head {ss : List (List Char × JMembers)} (hsegs : SegsOk ss)
    (hne : ss ≠ []) : (joinSegs ss).head? = some '{' := by
  cases ss with
  | nil => exact absurd rfl hne
  | cons sm rest =>
    obtain ⟨s, ms⟩ := sm
    have hok := hsegs (s, ms) (by simp)
    rw [joinSegs_cons]
    cases s with
    | nil => exact absurd rfl (segOk_ne_nil hok)
    | cons c cs =>
      simp only [List.cons_append, List.head?_cons]
      simpa using hok.1

theorem driveSegs {schema : Schema} {stream : List Char} :
    ∀ (ss : List (List Char × JMembers)) (p : PState) (loc : Nat)
    (_hdrop : stream.drop loc = joinSegs ss)
    (_hlen : stream.length = loc + (joinSegs ss).length)
    (_hsegs : SegsOk ss)
    {rows : List Row} {pf : PState}
    (_hrun : runSegs schema p ss = some (rows, pf))
    (_hb : p.level = 0) (_hc : p.record_complete = false),
    ∃ f, drive schema stream stream.length f lexInit p loc =
      .out rows lexInit pf stream.length := by
  intro ss
  induction ss with
  | nil =>
    intro p loc hdrop hlen hsegs rows pf hrun hb hc
    simp only [runSegs, Option.some.injEq, Prod.mk.injEq] at hrun
    obtain ⟨h1, h2⟩ := hrun
    subst h1; subst h2
    simp only [joinSegs, List.map_nil, List.flatten_nil, List.length_nil] at hlen
    refine ⟨0, ?_⟩
    rw [drive]
    simp [hlen]
  | cons sm rest ih =>
    intro p loc hdrop hlen hsegs rows pf hrun hb hc
    obtain ⟨s, ms⟩ := sm
    have hok : SegOk s ms := hsegs (s, ms) (by simp)
    rw [joinSegs_cons] at hdrop hlen
    simp only [runSegs] at hrun
    split at hrun
    case h_2 => cases hrun
    rename_i p1 h1
    split at hrun
    case h_2 => cases hrun
    rename_i rows2 pf2 h2
    simp only [Option.some.injEq, Prod.mk.injEq] at hrun
    obtain ⟨hr1, hr2⟩ := hrun
    subst hr2
    have hsne : s ≠ [] := segOk_ne_nil hok
    have hslen : 0 < s.length := List.length_pos.mpr hsne
    have hloc : loc < stream.length := by
      rw [hlen, List.length_append]
      omega
    have hfin := runEvents_vobj_final h1 hb
    have hchunk : (stream.drop loc).take (stream.length - loc) =
        s ++ joinSegs rest := by
      rw [hdrop]
      apply List.take_of_length_le
      rw [← hdrop, List.length_drop]
    have hrest : joinSegs rest = [] ∨ (joinSegs rest).head? = some '\x7b' := by
      cases rest with
      | nil => left; rfl
      | cons sm2 r2 =>
        right
        exact joinSegs_head (fun x hx => hsegs x (by simp [hx])) (by simp)
    have hcall := qp_complete_call schema stream
      hchunk hok.2.2 h1 hfin.2 hfin.1 hrest hloc
    have hdrop2 : stream.drop (loc + s.length) = joinSegs rest := by
      rw [← List.drop_drop, hdrop, List.drop_left]
    have hlen2 : stream.length = (loc + s.length) + (joinSegs rest).length := by
      rw [hlen, List.length_append]
      omega
    have hsegs2 : SegsOk rest := fun x hx => hsegs x (by simp [hx])
    obtain ⟨f, hf⟩ := ih (clearFlags p1) (loc + s.length) hdrop2 hlen2 hsegs2
      h2 hfin.1 rfl
    refine ⟨f + 1, ?_⟩
    rw [drive]
    simp only [if_neg (by omega : ¬ stream.length ≤ loc), hcall, hf]
    rw [← hr1]
    simp


theorem lexStep_rbrace_tok {L L' : LexState}
    (h : lexStep L '\x7d' = some (L', [])) :
    L'.tok ≠ TokState.tnone := by
  obtain ⟨tok, mode, stack⟩ := L
  cases tok with
  | tnone =>
    cases mode <;>
      simp [lexStep, stepStruct, startValue, isWs, isDigit, popFrame] at h
  | tstr k acc esc =>
    cases esc with
    | no =>
      simp only [lexStep] at h
      split_ifs at h <;> try simp_all
      all_goals (subst h; simp)
    | simple =>
      simp only [lexStep] at h
      split_ifs at h <;> try split at h
      all_goals try simp_all
      all_goals (subst h; simp)
    | hex ds =>
      simp only [lexStep] at h
      split at h <;> try simp_all
      all_goals try split_ifs at h
      all_goals try simp_all
      all_goals (subst h; simp)
  | tnum acc =>
    simp only [lexStep] at h
    split_ifs at h
    · rename_i hn
      simp [isNumChar, isDigit] at hn
    · split at h <;> simp_all
  | tlit rem ev =>
    cases rem with
    | nil => simp [lexStep] at h
    | cons r rs =>
      simp only [lexStep] at h
      split_ifs at h <;> try simp_all
      all_goals (subst h; simp)


theorem lexChars_rbrace_last {L : LexState} {s2 : List Char}
    (hne : s2 ≠ []) (hlast : s2.getLast? = some '\x7d')
    (h : lexChars L s2 = some (lexInit, [])) : False := by
  rcases List.eq_nil_or_concat s2 with rfl | ⟨b, c, hbc⟩
  · exact hne rfl
  · rw [List.concat_eq_append] at hbc
    subst hbc
    rw [List.getLast?_append_of_ne_nil _ (by simp)] at hlast
    simp only [List.getLast?_singleton, Option.some.injEq] at hlast
    subst hlast
    obtain ⟨L1, e1, e2, k1, k2, k3⟩ := lexChars_append_split h
    have he2 : e2 = [] := (List.append_eq_nil.mp k3.symm).2
    subst he2
    simp only [lexChars] at k2
    split at k2
    · cases k2
    · rename_i L2 ev heq
      simp only [lexChars, Option.some.injEq, Prod.mk.injEq] at k2
      obtain ⟨g1, g2⟩ := k2
      rw [List.append_nil] at g2
      subst g1; subst g2
      exact lexStep_rbrace_tok heq rfl

theorem seg_straddle_complete_false {schema : Schema} {p : PState} {ms : JMembers}
    {s s1 s2 : List Char} {Lm : LexState} {e1 e2 : List JEvent} {pm : PState}
    (hok : SegOk s ms) (hsplit : s = s1 ++ s2) (hs2 : s2 ≠ [])
    (k1 : lexChars lexInit s1 = some (Lm, e1))
    (k2 : lexChars Lm s2 = some (lexInit, e2))
    (k3 : (JVal.vobj ms).events = e1 ++ e2)
    (hrun : runEvents schema p e1 = .ok pm)
    (hb : p.level = 0) (hc : p.record_complete = false) :
    pm.record_complete = false := by
  have he2 : e2 ≠ [] := by
    intro he
    subst he
    refine lexChars_rbrace_last hs2 ?_ k2
    have := hok.2.1
    rw [hsplit] at this
    rwa [List.getLast?_append_of_ne_nil _ hs2] at this
  refine runEvents_complete_false hrun hc ?_
  intro a b hab ha
  rw [hb]
  have := vobj_events_pos ms a (b ++ e2)
    (by rw [k3, hab, List.append_assoc]) ha (by simp [he2])
  omega


theorem eraseStarted_fields {p q : PState} (h : eraseStarted p = eraseStarted q) :
    p.values = q.values ∧ p.record_complete = q.record_complete ∧
    p.level = q.level ∧ clearFlags p = clearFlags q := by
  obtain ⟨v1, c1, r1, s1, l1, j1, a1, w1⟩ := p
  obtain ⟨v2, c2, r2, s2, l2, j2, a2, w2⟩ := q
  simp only [eraseStarted, PState.mk.injEq, and_true, true_and] at h
  obtain ⟨hv, hc, hr, hl, hj, ha, hw⟩ := h
  subst hv; subst hc; subst hr; subst hl; subst hj; subst ha; subst hw
  simp [clearFlags]

theorem clearFlags_eq_erase {p : PState} (h : p.record_complete = false) :
    clearFlags p = eraseStarted p := by
  obtain ⟨v, c, r, s, l, j, a, w⟩ := p
  simp only at h
  subst h
  rfl

theorem qp_resume_call (schema : Schema) (stream : List Char) {Lm : LexState}
    {pm : PState} {k size : Nat} {s2 rest : List Char} {e2 : List JEvent}
    {p1 : PState}
    (hchunk : (stream.drop k).take (size - k) = s2 ++ rest)
    (hlex : lexChars Lm s2 = some (lexInit, e2))
    (hrun : runEvents schema pm e2 = .ok p1)
    (hcm : pm.record_complete = false)
    (hcomp : p1.record_complete = true)
    (hlevel : p1.level = 0)
    (hrest : rest = [] ∨ rest.head? = some '\x7b')
    (hk : k < size) :
    quasar_parse schema stream Lm (clearFlags pm) k size =
      some ⟨.recordComplete, lexInit, clearFlags p1, k + s2.length,
        some p1.values⟩ := by
  have hpq : eraseStarted (clearFlags pm) = eraseStarted pm := by
    rw [clearFlags_eq_erase hcm]
    obtain ⟨v, c, r, s, l, j, a, w⟩ := pm
    rfl
  have hrel := runEvents_rs schema hpq e2
  rw [hrun] at hrel
  cases hq : runEvents schema (clearFlags pm) e2 with
  | ok p1' =>
    rw [hq] at hrel
    simp only [stepErase, Step.ok.injEq] at hrel
    obtain ⟨hval, hcomp', hlev', hclear⟩ := eraseStarted_fields hrel
    have := qp_complete_call schema stream
      hchunk hlex hq (by rw [hcomp', hcomp]) (by rw [hlev', hlevel]) hrest hk
    rw [this, hclear, hval]
  | cancel q => rw [hq] at hrel; simp [stepErase] at hrel
  | err => rw [hq] at hrel; simp [stepErase] at hrel


/-- Claim C1, counterexample.  Decoding the record with the unknown top-level
key, `\x7b"id":1,"ghost":99\x7d`, against the schema `[id:int, tags:text
array, meta:json]` is NOT non-fatal: the value `99` arriving while `cur_col`
is `NO_COLUMN` reaches `store_datum` at `COLUMN_LEVEL`, whose `get_column`
call raises the fatal `elog(ERROR, "Got a value when no column specified!")`,
aborting the decode.  The claim's expected row `(1, null, null)` is not
produced. -/
theorem c1_unknown_key_counterexample :
    runEvents exSchema (initPState exSchema)
      [.startMap, .mapKey "id", .jnumber "1", .mapKey "ghost", .jnumber "99", .endMap] =
    .err := rfl

/-- Claim C1, amended.  An unresolvable top-level key is non-fatal only when
its value is JSON `null` (the `store_null` early return at `COLUMN_LEVEL`
never consults the column): `\x7b"id":1,"ghost":null\x7d` decodes to the row
`(1, null, null)` with a completed record; but a non-null value under an
unresolvable key, as in `\x7b"id":1,"ghost":99\x7d`, raises a fatal
"no column specified" error that aborts the decode. -/
theorem c1_unknown_key_amended :
    runEvents exSchema (initPState exSchema)
      [.startMap, .mapKey "id", .jnumber "1", .mapKey "ghost", .jnumber "99", .endMap] =
      .err ∧
    runEvents exSchema (initPState exSchema)
      [.startMap, .mapKey "id", .jnumber "1", .mapKey "ghost", .jnull, .endMap] =
      .ok { values := [some "1", none, none], cur_col := none, record_complete := true,
            record_started := true, level := 0, json := "", array := "", warned := false } :=
  ⟨rfl, rfl⟩

/-- Claim C4.  For a zero-dimension column of an integer type (`INT2OID` or
`INT4OID`, the types `checkConversions` classifies as integers), a number
literal longer than two characters ending in the suffix `".0"` has the suffix
stripped before conversion (the last two characters are truncated), and any
literal not ending in `".0"` is passed through unmodified; in particular
`42.0` converts as `42` while `42.5` is unchanged. -/
theorem c4_integer_dot_zero_strip (col : Column)
    (hnd : col.attndims = 0)
    (hty : col.atttypid = PgType.int2 ∨ col.atttypid = PgType.int4) :
    (∀ v : String, 2 < v.length → v.data.reverse.take 2 = ['0', '.'] →
      checkConversions col v = String.mk (v.data.take (v.length - 2))) ∧
    (∀ v : String, v.data.reverse.take 2 ≠ ['0', '.'] → checkConversions col v = v) ∧
    checkConversions col "42.0" = "42" ∧
    checkConversions col "42.5" = "42.5" := by
  have h0 : ¬ (0 < col.attndims) := by omega
  refine ⟨fun v h1 h2 => ?_, fun v h2 => ?_, ?_, ?_⟩ <;> rcases hty with h | h <;>
      simp only [checkConversions, h, h0, if_false]
  · exact if_pos ⟨h1, h2⟩
  · exact if_pos ⟨h1, h2⟩
  · exact if_neg (fun hc => h2 hc.2)
  · exact if_neg (fun hc => h2 hc.2)
  · rfl
  · rfl
  · rfl
  · rfl

/-- Witness for C4 at the concrete `int4` column. -/
theorem c4_integer_dot_zero_strip_witness :
    checkConversions intCol "42.0" = "42" ∧ checkConversions intCol "42.5" = "42.5" :=
  ⟨(c4_integer_dot_zero_strip intCol rfl (Or.inr rfl)).2.2.1,
   (c4_integer_dot_zero_strip intCol rfl (Or.inr rfl)).2.2.2⟩

/-- Claim C5.  Above `COLUMN_LEVEL`, a JSON `null` is emitted into the json
(raw-document) buffer as the token `null` when the current column is
json-shaped, and into the array buffer as the composite-literal token `NULL`
when it is array-shaped; consequently the source array `[1,null,3]` decoded
for the integer-array column produces the composite literal
`\x7b1,NULL,3\x7d` in the row slot. -/
theorem c5_array_null_token (schema : Schema) (p : PState) (col : Column)
    (hl : 1 < p.level) (hcol : get_column schema p = some col) :
    (is_json_type col = true →
      store_null schema p =
        some { p with record_started := true,
                      json := jsonAppendCommaIf p.json ++ "null" }) ∧
    (is_json_type col = false → is_array_type col = true →
      store_null schema p =
        some { p with record_started := true,
                      array := arrayAppendCommaIf p.array ++ "NULL" }) ∧
    runEvents arrIntSchema (initPState arrIntSchema)
      [.startMap, .mapKey "a", .startArray, .jnumber "1", .jnull, .jnumber "3",
       .endArray, .endMap] =
    .ok { values := [some "\x7b1,NULL,3\x7d"], cur_col := some 0, record_complete := true,
          record_started := true, level := 0, json := "", array := "", warned := false } := by
  have hg : get_column schema { p with record_started := true } = some col := hcol
  refine ⟨?_, ?_, rfl⟩
  · intro hj
    simp [store_null, hl, hg, hj]
  · intro hj ha
    simp [store_null, hl, hg, hj, ha]

/-- Witness for C5 at a concrete mid-array state of the array column. -/
theorem c5_array_null_token_witness :
    store_null arrIntSchema pArrMid =
      some { pArrMid with record_started := true,
                          array := arrayAppendCommaIf pArrMid.array ++ "NULL" } :=
  (c5_array_null_token arrIntSchema pArrMid arrCol (by decide) rfl).2.1 rfl rfl

/-- Claim C6, counterexample.  A map-key event at nesting level 2 under the
scalar `id` column does not raise a fatal schema-mismatch error: decoding
`\x7b"id":\x7b"k":1\x7d\x7d` runs to a completed record (the nested key `"k"`
is silently skipped by `cb_map_key`, and only the one-shot warning flag was
raised at the structure open). -/
theorem c6_nested_key_counterexample :
    runEvents exSchema (initPState exSchema)
      [.startMap, .mapKey "id", .startMap, .mapKey "k", .jnumber "1", .endMap, .endMap] =
    .ok { values := [none, none, none], cur_col := some 0, record_complete := true,
          record_started := true, level := 0, json := "", array := "", warned := true } := rfl

/-- Claim C6, amended.  A map-key event at nesting level above
`COLUMN_LEVEL` is re-serialized as a JSON object-key fragment into the
raw-document buffer when the current column is json-shaped; for every other
resolvable column it is silently ignored — the state is returned unchanged,
with no error (a shape-mismatch warning may already have been issued by the
enclosing structure-open). -/
theorem c6_nested_key_amended (schema : Schema) (p : PState) (s : String) (col : Column)
    (hl : 1 < p.level) (hcol : get_column schema p = some col) :
    (is_json_type col = true →
      cb_map_key schema p s =
        some { p with json := jsonAppendCommaIf p.json ++ "\"" ++ s ++ "\":" }) ∧
    (is_json_type col = false → cb_map_key schema p s = some p) := by
  have hne : p.level ≠ 1 := by omega
  constructor
  · intro hj
    simp [cb_map_key, hne, hl, hcol, hj]
  · intro hj
    simp [cb_map_key, hne, hl, hcol, hj]

/-- Witness for C6 at concrete mid-structure states: the key under the json
column is appended to the raw-document buffer, the key under the scalar
column is skipped without error. -/
theorem c6_nested_key_amended_witness :
    cb_map_key exSchema pJsonMid "k" =
      some { pJsonMid with json := jsonAppendCommaIf pJsonMid.json ++ "\"" ++ "k" ++ "\":" } ∧
    cb_map_key exSchema pScalarMid "k" = some pScalarMid :=
  ⟨(c6_nested_key_amended exSchema pJsonMid "k" metaCol (by decide) rfl).1 rfl,
   (c6_nested_key_amended exSchema pScalarMid "k" intCol (by decide) rfl).2 rfl⟩



theorem splitDrive {schema : Schema} {stream : List Char} :
    ∀ (ss : List (List Char × JMembers)) (p : PState) (loc k : Nat)
    (_hdrop : stream.drop loc = joinSegs ss)
    (_hlen : stream.length = loc + (joinSegs ss).length)
    (_hsegs : SegsOk ss)
    {rows : List Row} {pf : PState}
    (_hrun : runSegs schema p ss = some (rows, pf))
    (_hb : p.level = 0) (_hc : p.record_complete = false)
    (_hk1 : loc ≤ k) (_hk2 : k ≤ stream.length),
    ∃ f1 f2 L' p' rows1 rows2,
      drive schema stream k f1 lexInit p loc = .out rows1 L' p' k ∧
      drive schema stream stream.length f2 L' p' k =
        .out rows2 lexInit pf stream.length ∧
      rows1 ++ rows2 = rows := by
  intro ss
  induction ss with
  | nil =>
    intro p loc k hdrop hlen hsegs rows pf hrun hb hc hk1 hk2
    simp only [runSegs, Option.some.injEq, Prod.mk.injEq] at hrun
    obtain ⟨h1, h2⟩ := hrun
    subst h1; subst h2
    simp only [joinSegs, List.map_nil, List.flatten_nil, List.length_nil] at hlen
    have hkl : k = loc := by omega
    subst hkl
    refine ⟨0, 0, lexInit, p, [], [], ?_, ?_, rfl⟩
    · rw [drive]
      simp
    · rw [drive]
      simp [hlen]
  | cons sm rest ih =>
    intro p loc k hdrop hlen hsegs rows pf hrun hb hc hk1 hk2
    obtain ⟨s, ms⟩ := sm
    have hok : SegOk s ms := hsegs (s, ms) (by simp)
    rw [joinSegs_cons] at hdrop hlen
    simp only [runSegs] at hrun
    split at hrun
    case h_2 => cases hrun
    rename_i p1 h1
    split at hrun
    case h_2 => cases hrun
    rename_i rows2 pf2 h2
    simp only [Option.some.injEq, Prod.mk.injEq] at hrun
    obtain ⟨hr1, hr2⟩ := hrun
    subst hr2
    have hsne : s ≠ [] := segOk_ne_nil hok
    have hslen : 0 < s.length := List.length_pos.mpr hsne
    have hfin := runEvents_vobj_final h1 hb
    have hsegs2 : SegsOk rest := fun x hx => hsegs x (by simp [hx])
    have hdrop2 : stream.drop (loc + s.length) = joinSegs rest := by
      rw [← List.drop_drop, hdrop, List.drop_left]
    have hlen2 : stream.length = (loc + s.length) + (joinSegs rest).length := by
      rw [hlen, List.length_append]
      omega
    rcases Nat.lt_or_ge k (loc + s.length) with hC | hA
    · rcases Nat.eq_or_lt_of_le hk1 with hB | hstrict
      · -- k = loc: the prefix drive does nothing
        have hsegs0 : SegsOk ((s, ms) :: rest) := hsegs
        have hrun0 : runSegs schema p ((s, ms) :: rest) = some (p1.values :: rows2, pf2) := by
          simp only [runSegs, h1, h2]
        obtain ⟨f, hf⟩ := driveSegs ((s, ms) :: rest) p loc
          (by rw [joinSegs_cons]; exact hdrop)
          (by rw [joinSegs_cons]; exact hlen) hsegs0 hrun0 hb hc
        subst hB
        refine ⟨0, f, lexInit, p, [], p1.values :: rows2, ?_, hf, by simp [hr1]⟩
        rw [drive]
        simp
      · -- straddle: loc < k < loc + s.length
        have hs1len : k - loc ≤ s.length := by omega
        have hsplit : s = s.take (k - loc) ++ s.drop (k - loc) :=
          (List.take_append_drop (k - loc) s).symm
        have hs1ne : s.take (k - loc) ≠ [] := by
          intro hemp
          have := congrArg List.length hemp
          simp only [List.length_take, List.length_nil] at this
          omega
        have hs2ne : s.drop (k - loc) ≠ [] := by
          intro hemp
          have := congrArg List.length hemp
          simp only [List.length_drop, List.length_nil] at this
          omega
        have hlex0 := hok.2.2
        rw [hsplit] at hlex0
        obtain ⟨Lm, e1, e2, k1, k2, k3⟩ := lexChars_append_split hlex0
        rw [k3] at h1
        rw [runEvents_append] at h1
        cases hm : runEvents schema p e1 with
        | ok pm =>
          rw [hm] at h1
          have hcm : pm.record_complete = false :=
            seg_straddle_complete_false hok hsplit hs2ne k1 k2 k3 hm hb hc
          have hchunk1 : (stream.drop loc).take (k - loc) = s.take (k - loc) := by
            rw [hdrop]
            exact List.take_append_of_le_length hs1len
          have hcall1 := qp_partial_call schema stream
            hchunk1 k1 hm hcm hstrict
          have hloc1 : loc + (s.take (k - loc)).length = k := by
            simp only [List.length_take]
            omega
          have hchunk2 : (stream.drop k).take (stream.length - k) =
              s.drop (k - loc) ++ joinSegs rest := by
            have hdk : stream.drop k = s.drop (k - loc) ++ joinSegs rest := by
              have : stream.drop k = (stream.drop loc).drop (k - loc) := by
                rw [List.drop_drop]
                congr 1
                omega
              rw [this, hdrop, List.drop_append_of_le_length hs1len]
            rw [hdk]
            apply List.take_of_length_le
            rw [← hdk, List.length_drop]
          have hrest2 : joinSegs rest = [] ∨ (joinSegs rest).head? = some '\x7b' := by
            cases rest with
            | nil => left; rfl
            | cons sm2 r2 => right; exact joinSegs_head hsegs2 (by simp)
          have hkN : k < stream.length := by
            rw [hlen2]
            omega
          have hcall2 := qp_resume_call schema stream
            hchunk2 k2 h1 hcm hfin.2 hfin.1 hrest2 hkN
          have hloc2 : k + (s.drop (k - loc)).length = loc + s.length := by
            simp only [List.length_drop]
            omega
          obtain ⟨f, hf⟩ := driveSegs rest (clearFlags p1) (loc + s.length)
            hdrop2 hlen2 hsegs2 h2 hfin.1 rfl
          refine ⟨2, f + 1, Lm, clearFlags pm, [], p1.values :: rows2, ?_, ?_, by simp [hr1]⟩
          · rw [drive]
            simp only [if_neg (by omega : ¬ k ≤ loc), hcall1]
            rw [hloc1, drive]
            simp
          · rw [drive]
            simp only [if_neg (by omega : ¬ stream.length ≤ k), hcall2]
            rw [hloc2, hf]
            simp
        | cancel q => rw [hm] at h1; cases h1
        | err => rw [hm] at h1; cases h1
    · -- case A: the segment is wholly inside the prefix window
      have hlock : loc < k := by omega
      have hchunkA : (stream.drop loc).take (k - loc) =
          s ++ (joinSegs rest).take (k - (loc + s.length)) := by
        rw [hdrop, List.take_append_eq_append_take,
          List.take_of_length_le (by omega)]
        congr 2
        omega
      have hrestA : (joinSegs rest).take (k - (loc + s.length)) = [] ∨
          ((joinSegs rest).take (k - (loc + s.length))).head? = some '\x7b' := by
        rcases Nat.eq_zero_or_pos (k - (loc + s.length)) with hz | hpos
        · left; rw [hz]; rfl
        · cases hj : joinSegs rest with
          | nil => left; simp
          | cons c cs =>
            right
            have hne : rest ≠ [] := by
              intro hemp
              subst hemp
              simp [joinSegs] at hj
            have hhead := joinSegs_head hsegs2 hne
            rw [hj] at hhead
            obtain ⟨m, hm⟩ := Nat.exists_eq_add_of_lt hpos
            rw [hm]
            simpa using hhead
      have hcallA := qp_complete_call schema stream
        hchunkA hok.2.2 h1 hfin.2 hfin.1 hrestA hlock
      obtain ⟨f1, f2, L', p', rows1, rows2x, d1, d2, d3⟩ :=
        ih (clearFlags p1) (loc + s.length) k hdrop2 hlen2 hsegs2 h2 hfin.1 rfl
          hA hk2
      refine ⟨f1 + 1, f2, L', p', p1.values :: rows1, rows2x, ?_, d2, by
        simp [← hr1, ← d3]⟩
      rw [drive]
      simp only [if_neg (by omega : ¬ k ≤ loc), hcallA, d1]
      simp

theorem c2segsOk : SegsOk c2ss := by
  intro sm hsm
  simp only [c2ss, List.mem_cons, List.not_mem_nil, or_false] at hsm
  rcases hsm with h | h
  · subst h; exact ⟨by decide, by decide, by decide⟩
  · subst h; exact ⟨by decide, by decide, by decide⟩

/-- C2: over a well-formed stream of concatenated JSON objects, splitting the
buffer at any byte offset `k` and decoding it in two successive call
sequences (the second resumed from the offset, tokenizer state and parser
state left by the first) produces exactly the rows of the single-call decode
of the whole stream, in order. -/
theorem c2_chunk_split_idempotent (schema : Schema)
    (ss : List (List Char × JMembers)) (k : Nat)
    (rows : List Row) (pf : PState)
    (hsegs : SegsOk ss)
    (hrun : runSegs schema (initPState schema) ss = some (rows, pf))
    (hk : k ≤ (joinSegs ss).length) :
    (∃ f, drive schema (joinSegs ss) (joinSegs ss).length f lexInit
        (initPState schema) 0 =
        .out rows lexInit pf (joinSegs ss).length) ∧
    (∃ f1 f2 L' p' rows1 rows2,
      drive schema (joinSegs ss) k f1 lexInit (initPState schema) 0 =
        .out rows1 L' p' k ∧
      drive schema (joinSegs ss) (joinSegs ss).length f2 L' p' k =
        .out rows2 lexInit pf (joinSegs ss).length ∧
      rows1 ++ rows2 = rows) := by
  constructor
  · exact driveSegs ss (initPState schema) 0 (by simp) (by simp) hsegs hrun rfl rfl
  · exact splitDrive ss (initPState schema) 0 k (by simp) (by simp) hsegs hrun
      rfl rfl (Nat.zero_le k) hk

theorem c2_chunk_split_idempotent_witness :
    SegsOk c2ss ∧
    runSegs exSchema (initPState exSchema) c2ss = some (c2rows, c2pf) ∧
    5 ≤ (joinSegs c2ss).length ∧
    ((∃ f, drive exSchema (joinSegs c2ss) (joinSegs c2ss).length f lexInit
        (initPState exSchema) 0 =
        .out c2rows lexInit c2pf (joinSegs c2ss).length) ∧
     (∃ f1 f2 L' p' rows1 rows2,
        drive exSchema (joinSegs c2ss) 5 f1 lexInit (initPState exSchema) 0 =
          .out rows1 L' p' 5 ∧
        drive exSchema (joinSegs c2ss) (joinSegs c2ss).length f2 L' p' 5 =
          .out rows2 lexInit c2pf (joinSegs c2ss).length ∧
        rows1 ++ rows2 = c2rows)) :=
  ⟨c2segsOk, by decide, by decide,
   c2_chunk_split_idempotent exSchema c2ss 5 c2rows c2pf c2segsOk (by decide)
     (by decide)⟩

/-- C3: when the consumer cancels at record completion, `yajl_parse` has
consumed the full record plus exactly one extra byte (the opening byte of the
next top-level value, whose structure-open callback detects the pending
complete record and cancels); `quasar_parse` decrements that consumed count
by exactly one before advancing the cursor, so the returned offset points
exactly at the first byte of the next top-level value. -/
theorem c3_cancel_backs_up_one_byte (schema : Schema) (stream : List Char)
    (L0 : LexState) (p0 : PState) (loc size : Nat)
    (schars rest : List Char) (e : List JEvent) (pf : PState)
    (hchunk : (stream.drop loc).take (size - loc) = schars ++ rest)
    (hlex : lexChars L0 schars = some (lexInit, e))
    (hrun : runEvents schema p0 e = .ok pf)
    (hcomp : pf.record_complete = true) (hlevel : pf.level = 0)
    (hrest : rest.head? = some '\x7b') (hloc : loc < size) :
    ∃ n,
      yajlRun schema L0 p0 ((stream.drop loc).take (size - loc)) =
        .canceled n pf ∧
      n = schars.length + 1 ∧
      quasar_parse schema stream L0 p0 loc size =
        some ⟨.recordComplete, lexInit, clearFlags pf, loc + (n - 1),
          some pf.values⟩ ∧
      (((stream.drop loc).take (size - loc)).drop (n - 1)).head? = some '\x7b' := by
  cases rest with
  | nil => cases hrest
  | cons c rest2 =>
    simp only [List.head?_cons, Option.some.injEq] at hrest
    subst hrest
    have hok : yajlRun schema L0 p0 schars = .ok lexInit pf :=
      yajlRun_ok_of_events hlex hrun
    have hcan : yajlRun schema L0 p0 (schars ++ '\x7b' :: rest2) =
        .canceled (schars.length + 1) pf :=
      yajlRun_extend_cancel hok (yajlRun_cancel_head rest2 hlevel hcomp)
    refine ⟨schars.length + 1, by rw [hchunk]; exact hcan, rfl, ?_, ?_⟩
    · simp only [quasar_parse, if_pos hloc, hchunk, hcan]
      simp [qpFinish, hcomp, clearFlags]
    · rw [hchunk]
      simp only [Nat.add_sub_cancel]
      rw [List.drop_left]
      rfl

theorem c3_cancel_backs_up_one_byte_witness :
    ((joinSegs c2ss).take 16 = c2seg1 ++ c2seg2 ∧
     lexChars lexInit c2seg1 = some (lexInit, (JVal.vobj c2ms1).events) ∧
     runEvents exSchema (initPState exSchema) (JVal.vobj c2ms1).events =
       .ok c3pf ∧
     c2seg2.head? = some '\x7b') ∧
    ∃ n,
      yajlRun exSchema lexInit (initPState exSchema) ((joinSegs c2ss).take 16) =
        .canceled n c3pf ∧
      n = c2seg1.length + 1 ∧
      quasar_parse exSchema (joinSegs c2ss) lexInit (initPState exSchema) 0 16 =
        some ⟨.recordComplete, lexInit, clearFlags c3pf, 0 + (n - 1),
          some c3pf.values⟩ ∧
      (((joinSegs c2ss).take 16).drop (n - 1)).head? = some '\x7b' :=
  ⟨⟨by decide, by decide, by decide, by decide⟩, by
    have h := c3_cancel_backs_up_one_byte exSchema (joinSegs c2ss) lexInit
      (initPState exSchema) 0 16 c2seg1 c2seg2 (JVal.vobj c2ms1).events c3pf
      (by decide) (by decide) (by decide) (by decide) (by decide) (by decide)
      (by decide)
    simpa using h⟩

/-- C7: along the event run of a well-formed top-level JSON object, every
structure-open event increases the nesting level by exactly 1 and every
structure-close event decreases it by exactly 1 (all other events leave it
unchanged); the level is never negative at any prefix of the run; and the
record-complete flag is set exactly by the end-object event that returns the
level to 0: it is still clear after every proper prefix of the record's
events and set (with level 0) after the full record. -/
theorem c7_level_invariants (schema : Schema) (p : PState) (ms : JMembers)
    (q : PState)
    (hrun : runEvents schema p (JVal.vobj ms).events = .ok q)
    (h0 : p.level = 0) (hc : p.record_complete = false) :
    (∀ (r r' : PState) (e : JEvent), pstep schema r e = .ok r' →
      ((e = .startMap ∨ e = .startArray) → r'.level = r.level + 1) ∧
      ((e = .endMap ∨ e = .endArray) → r'.level = r.level - 1) ∧
      (edelta e = 0 → r'.level = r.level)) ∧
    (∀ (a b : List JEvent) (qa : PState), (JVal.vobj ms).events = a ++ b →
      runEvents schema p a = .ok qa → 0 ≤ qa.level) ∧
    (q.level = 0 ∧ q.record_complete = true) ∧
    (∀ (a b : List JEvent) (qa : PState), (JVal.vobj ms).events = a ++ b →
      b ≠ [] → runEvents schema p a = .ok qa →
      qa.record_complete = false) ∧
    (∀ (r r' : PState) (e : JEvent), pstep schema r e = .ok r' →
      (e = .endMap → r.level = 1 → r'.record_complete = true) ∧
      (¬ (e = .endMap ∧ r.level = 1) →
        r'.record_complete = r.record_complete)) := by
  refine ⟨?_, ?_, runEvents_vobj_final hrun h0, ?_, ?_⟩
  · intro r r' e h
    have hl := pstep_ok_level h
    refine ⟨?_, ?_, ?_⟩
    · rintro (rfl | rfl) <;> simp only [edelta] at hl <;> omega
    · rintro (rfl | rfl) <;> simp only [edelta] at hl <;> omega
    · intro hz; omega
  · intro a b qa hab ha
    have hl := runEvents_ok_level ha
    have hmin : minPre (JVal.vobj ms).events ≤ dsum a := minPre_le_dsum_split hab
    have hbal := (jval_events_balance (.vobj ms)).2
    omega
  · intro a b qa hab hb ha
    refine runEvents_complete_false ha hc ?_
    intro a2 b2 hsplit ha2
    have hpos := vobj_events_pos ms a2 (b2 ++ b)
      (by rw [hab, hsplit, List.append_assoc]) ha2
      (by intro hemp; exact hb (List.append_eq_nil.mp hemp).2)
    omega
  · intro r r' e h
    have hcp := pstep_ok_complete h
    exact ⟨fun he hl => hcp.2 he hl, hcp.1⟩

theorem c7_level_invariants_witness :
    (runEvents exSchema (initPState exSchema) (JVal.vobj c2ms1).events =
      .ok c3pf ∧
     (initPState exSchema).level = 0 ∧
     (initPState exSchema).record_complete = false) ∧
    ((∀ (r r' : PState) (e : JEvent), pstep exSchema r e = .ok r' →
      ((e = .startMap ∨ e = .startArray) → r'.level = r.level + 1) ∧
      ((e = .endMap ∨ e = .endArray) → r'.level = r.level - 1) ∧
      (edelta e = 0 → r'.level = r.level)) ∧
    (∀ (a b : List JEvent) (qa : PState), (JVal.vobj c2ms1).events = a ++ b →
      runEvents exSchema (initPState exSchema) a = .ok qa → 0 ≤ qa.level) ∧
    (c3pf.level = 0 ∧ c3pf.record_complete = true) ∧
    (∀ (a b : List JEvent) (qa : PState), (JVal.vobj c2ms1).events = a ++ b →
      b ≠ [] → runEvents exSchema (initPState exSchema) a = .ok qa →
      qa.record_complete = false) ∧
    (∀ (r r' : PState) (e : JEvent), pstep exSchema r e = .ok r' →
      (e = .endMap → r.level = 1 → r'.record_complete = true) ∧
      (¬ (e = .endMap ∧ r.level = 1) →
        r'.record_complete = r.record_complete))) :=
  ⟨⟨by decide, rfl, rfl⟩,
   c7_level_invariants exSchema (initPState exSchema) c2ms1 c3pf (by decide)
     rfl rfl⟩

/-- C8: refutation of the claimed protocol error: a stray top-level number
event against `exSchema` is absorbed silently with only `record_started` set
(store_datum's level guards both fail at level 0 and no error path is
reached), and a stray top-level empty array (start-array and end-array at
level 0) is absorbed leaving the parser state exactly as it was, with no
error signalled in either case. -/
theorem c8_top_level_scalar_counterexample :
    pstep exSchema (initPState exSchema) (.jnumber "7") =
      .ok { initPState exSchema with record_started := true } ∧
    runEvents exSchema (initPState exSchema) [.startArray, .endArray] =
      .ok (initPState exSchema) := by
  constructor <;> rfl

/-- C8 amended: at level 0 a non-null scalar event (number, string or
boolean) is silently absorbed — the only effect is setting
`record_started` — and a start-array event just increments the level, also
without error; a top-level JSON null, by contrast, falls through
`store_null` to the fatal `elog(ERROR)` branch.  The second half of the
claim does hold: one well-formed top-level JSON object decodes to exactly
one output row. -/
theorem c8_top_level_amended (schema : Schema) (p : PState)
    (hl : p.level = 0) :
    (∀ s : String,
      pstep schema p (.jnumber s) = .ok { p with record_started := true } ∧
      pstep schema p (.jstring s) = .ok { p with record_started := true }) ∧
    (∀ b : Bool,
      pstep schema p (.jboolean b) = .ok { p with record_started := true }) ∧
    pstep schema p .jnull = .err ∧
    pstep schema p .startArray = .ok { p with level := p.level + 1 } ∧
    (∀ (ms : JMembers) (q : PState) (s : List Char),
      runEvents schema p (JVal.vobj ms).events = .ok q →
      runSegs schema p [(s, ms)] = some ([q.values], clearFlags q)) := by
  refine ⟨?_, ?_, ?_, ?_, ?_⟩
  · intro s
    constructor <;>
      simp [pstep, oStep, store_datum, hl]
  · intro b
    simp [pstep, oStep, store_datum, hl]
  · simp [pstep, oStep, store_null, hl]
  · simp [pstep, oStep, cb_start_array, hl]
  · intro ms q s h
    simp [runSegs, h]

theorem c8_top_level_amended_witness :
    (initPState exSchema).level = 0 ∧
    ((∀ s : String,
      pstep exSchema (initPState exSchema) (.jnumber s) =
        .ok { initPState exSchema with record_started := true } ∧
      pstep exSchema (initPState exSchema) (.jstring s) =
        .ok { initPState exSchema with record_started := true }) ∧
    (∀ b : Bool,
      pstep exSchema (initPState exSchema) (.jboolean b) =
        .ok { initPState exSchema with record_started := true }) ∧
    pstep exSchema (initPState exSchema) .jnull = .err ∧
    pstep exSchema (initPState exSchema) .startArray =
      .ok { initPState exSchema with level := (initPState exSchema).level + 1 } ∧
    (∀ (ms : JMembers) (q : PState) (s : List Char),
      runEvents exSchema (initPState exSchema) (JVal.vobj ms).events = .ok q →
      runSegs exSchema (initPState exSchema) [(s, ms)] =
        some ([q.values], clearFlags q))) :=
  ⟨rfl, c8_top_level_amended exSchema (initPState exSchema) rfl⟩

theorem runEvents_nil_ok {schema : Schema} {p q : PState}
    (h : runEvents schema p [] = .ok q) : q = p := by
  simp only [runEvents, Step.ok.injEq] at h
  exact h.symm

theorem runEvents_cons_ok {schema : Schema} {p q : PState} {e : JEvent}
    {es : List JEvent} (h : runEvents schema p (e :: es) = .ok q) :
    ∃ p1, pstep schema p e = .ok p1 ∧ runEvents schema p1 es = .ok q := by
  simp only [runEvents] at h
  cases hs : pstep schema p e with
  | ok p1 => rw [hs] at h; exact ⟨p1, rfl, h⟩
  | cancel p1 => rw [hs] at h; cases h
  | err => rw [hs] at h; cases h

theorem runEvents_append_ok {schema : Schema} {p q : PState} {a b : List JEvent}
    (h : runEvents schema p (a ++ b) = .ok q) :
    ∃ pm, runEvents schema p a = .ok pm ∧ runEvents schema pm b = .ok q := by
  rw [runEvents_append] at h
  cases hm : runEvents schema p a with
  | ok pm => rw [hm] at h; exact ⟨pm, rfl, h⟩
  | cancel pm => rw [hm] at h; cases h
  | err => rw [hm] at h; cases h

theorem pstep_footprint {schema : Schema} {p : PState} {e : JEvent} {p' : PState}
    (h : pstep schema p e = .ok p') (hl : 1 ≤ p.level) :
    (∀ i : Nat, p.cur_col ≠ some i → p'.values[i]? = p.values[i]?) ∧
    ((∀ k, e ≠ .mapKey k) → p'.cur_col = p.cur_col) ∧
    (p.level ≠ 1 → p'.cur_col = p.cur_col) := by
  cases e <;> simp only [pstep] at h
  case jnull =>
    obtain ⟨_, h2, _, _, _, h6⟩ := store_null_spec (oStep_ok h)
    exact ⟨fun i _ => by rw [h6], fun _ => h2, fun _ => h2⟩
  case jboolean b =>
    obtain ⟨_, h2, _, _, _, h6, _⟩ := store_datum_spec (oStep_ok h)
    exact ⟨h6, fun _ => h2, fun _ => h2⟩
  case jnumber s =>
    obtain ⟨_, h2, _, _, _, h6, _⟩ := store_datum_spec (oStep_ok h)
    exact ⟨h6, fun _ => h2, fun _ => h2⟩
  case jstring s =>
    obtain ⟨_, h2, _, _, _, h6, _⟩ := store_datum_spec (oStep_ok h)
    exact ⟨h6, fun _ => h2, fun _ => h2⟩
  case mapKey s =>
    obtain ⟨_, _, _, h4, _, h6⟩ := cb_map_key_spec (oStep_ok h)
    exact ⟨fun i _ => by rw [h4], fun hk => absurd rfl (hk s), h6⟩
  case startMap =>
    obtain ⟨_, _, _, h4, _, h6⟩ := cb_start_map_ok_spec h
    exact ⟨fun i _ => by rw [h6 (by omega)], fun _ => h4, fun _ => h4⟩
  case endMap =>
    obtain ⟨_, h2, _, _, h5⟩ := cb_end_map_spec (oStep_ok h)
    exact ⟨h5, fun _ => h2, fun _ => h2⟩
  case startArray =>
    obtain ⟨_, _, _, h4, h5, _⟩ := cb_start_array_spec (oStep_ok h)
    exact ⟨fun i _ => by rw [h5], fun _ => h4, fun _ => h4⟩
  case endArray =>
    obtain ⟨_, h2, _, h4⟩ := cb_end_array_spec (oStep_ok h)
    exact ⟨h4, fun _ => h2, fun _ => h2⟩

theorem cb_end_map_values_level1 {schema : Schema} {p q : PState}
    (h : cb_end_map schema p = some q) (hl : p.level = 1) :
    q.values = p.values ∧ q.cur_col = p.cur_col := by
  have h1 : endMapClose schema p = some p := by
    simp only [endMapClose]
    rw [if_neg (by omega : ¬ 1 < p.level)]
  unfold cb_end_map at h
  simp only [h1] at h
  unfold endMapFinish at h
  rw [if_neg (show ¬ ({ p with level := p.level - 1 } : PState).level = 1 by
        show ¬ p.level - 1 = 1
        omega)] at h
  rw [if_pos (show ({ p with level := p.level - 1 } : PState).level = 0 by
        show p.level - 1 = 0
        omega)] at h
  simp only [Option.some.injEq] at h
  subst h
  exact ⟨rfl, rfl⟩

mutual
theorem runEvents_val_inv (schema : Schema) (v : JVal) :
    ∀ (p q : PState), runEvents schema p (JVal.events v) = .ok q →
      1 ≤ p.level →
      q.cur_col = p.cur_col ∧ q.level = p.level ∧
      ∀ i : Nat, p.cur_col ≠ some i → q.values[i]? = p.values[i]? := by
  cases v with
  | vnull =>
    intro p q h hl
    obtain ⟨p1, hs, hrest⟩ := runEvents_cons_ok h
    have hq := runEvents_nil_ok hrest
    subst hq
    obtain ⟨f1, f2, _⟩ := pstep_footprint hs hl
    have hlv := pstep_ok_level hs
    simp only [edelta] at hlv
    exact ⟨f2 (by intro k hk; cases hk), by omega, f1⟩
  | vbool b =>
    intro p q h hl
    obtain ⟨p1, hs, hrest⟩ := runEvents_cons_ok h
    have hq := runEvents_nil_ok hrest
    subst hq
    obtain ⟨f1, f2, _⟩ := pstep_footprint hs hl
    have hlv := pstep_ok_level hs
    simp only [edelta] at hlv
    exact ⟨f2 (by intro k hk; cases hk), by omega, f1⟩
  | vnum s =>
    intro p q h hl
    obtain ⟨p1, hs, hrest⟩ := runEvents_cons_ok h
    have hq := runEvents_nil_ok hrest
    subst hq
    obtain ⟨f1, f2, _⟩ := pstep_footprint hs hl
    have hlv := pstep_ok_level hs
    simp only [edelta] at hlv
    exact ⟨f2 (by intro k hk; cases hk), by omega, f1⟩
  | vstr s =>
    intro p q h hl
    obtain ⟨p1, hs, hrest⟩ := runEvents_cons_ok h
    have hq := runEvents_nil_ok hrest
    subst hq
    obtain ⟨f1, f2, _⟩ := pstep_footprint hs hl
    have hlv := pstep_ok_level hs
    simp only [edelta] at hlv
    exact ⟨f2 (by intro k hk; cases hk), by omega, f1⟩
  | vobj ms =>
    intro p q h hl
    rw [JVal.events] at h
    obtain ⟨p1, hs, hrest⟩ := runEvents_cons_ok h
    obtain ⟨p2, hm, hend⟩ := runEvents_append_ok hrest
    obtain ⟨s1, s2, s3, s4, s5, s6⟩ := cb_start_map_ok_spec hs
    have hv1 : p1.values = p.values := s6 (by omega)
    obtain ⟨m1, m2, m3⟩ := runEvents_members_inv schema ms p1 p2 hm (by omega)
    obtain ⟨p3, he, hnil⟩ := runEvents_cons_ok hend
    have hq := runEvents_nil_ok hnil
    subst hq
    obtain ⟨e1, e2, e3, e4, e5⟩ := cb_end_map_spec (oStep_ok he)
    refine ⟨by rw [e2, m1, s4], by rw [e1, m2, s1]; omega, ?_⟩
    intro i hi
    have hi1 : p1.cur_col ≠ some i := by rw [s4]; exact hi
    have hi2 : p2.cur_col ≠ some i := by rw [m1, s4]; exact hi
    calc q.values[i]? = p2.values[i]? := e5 i hi2
      _ = p1.values[i]? := m3 i hi1
      _ = p.values[i]? := by rw [hv1]
  | varr es =>
    intro p q h hl
    rw [JVal.events] at h
    obtain ⟨p1, hs, hrest⟩ := runEvents_cons_ok h
    obtain ⟨p2, hm, hend⟩ := runEvents_append_ok hrest
    obtain ⟨s1, s2, s3, s4, s5, s6⟩ := cb_start_array_spec (oStep_ok hs)
    obtain ⟨m1, m2, m3⟩ := runEvents_elems_inv schema es p1 p2 hm (by omega)
    obtain ⟨p3, he, hnil⟩ := runEvents_cons_ok hend
    have hq := runEvents_nil_ok hnil
    subst hq
    obtain ⟨e1, e2, e3, e4⟩ := cb_end_array_spec (oStep_ok he)
    refine ⟨by rw [e2, m1, s4], by rw [e1, m2, s1]; omega, ?_⟩
    intro i hi
    have hi1 : p1.cur_col ≠ some i := by rw [s4]; exact hi
    have hi2 : p2.cur_col ≠ some i := by rw [m1, s4]; exact hi
    calc q.values[i]? = p2.values[i]? := e4 i hi2
      _ = p1.values[i]? := m3 i hi1
      _ = p.values[i]? := by rw [s5]

theorem runEvents_members_inv (schema : Schema) (ms : JMembers) :
    ∀ (p q : PState), runEvents schema p (JMembers.events ms) = .ok q →
      2 ≤ p.level →
      q.cur_col = p.cur_col ∧ q.level = p.level ∧
      ∀ i : Nat, p.cur_col ≠ some i → q.values[i]? = p.values[i]? := by
  cases ms with
  | nil =>
    intro p q h _
    rw [JMembers.events] at h
    have hq := runEvents_nil_ok h
    subst hq
    exact ⟨rfl, rfl, fun i _ => rfl⟩
  | cons k v rest =>
    intro p q h hl
    rw [JMembers.events] at h
    obtain ⟨p1, hs, hrest2⟩ := runEvents_cons_ok h
    obtain ⟨p2, hv, hr⟩ := runEvents_append_ok hrest2
    obtain ⟨k1, k2, k3, k4, k5, k6⟩ := cb_map_key_spec (oStep_ok hs)
    have hcc1 : p1.cur_col = p.cur_col := k6 (by omega)
    obtain ⟨v1, v2, v3⟩ := runEvents_val_inv schema v p1 p2 hv (by omega)
    obtain ⟨r1, r2, r3⟩ := runEvents_members_inv schema rest p2 q hr
      (by rw [v2, k1]; exact hl)
    refine ⟨by rw [r1, v1, hcc1], by rw [r2, v2, k1], ?_⟩
    intro i hi
    have hi1 : p1.cur_col ≠ some i := by rw [hcc1]; exact hi
    have hi2 : p2.cur_col ≠ some i := by rw [v1, hcc1]; exact hi
    calc q.values[i]? = p2.values[i]? := r3 i hi2
      _ = p1.values[i]? := v3 i hi1
      _ = p.values[i]? := by rw [k4]

theorem runEvents_elems_inv (schema : Schema) (es : JElems) :
    ∀ (p q : PState), runEvents schema p (JElems.events es) = .ok q →
      1 ≤ p.level →
      q.cur_col = p.cur_col ∧ q.level = p.level ∧
      ∀ i : Nat, p.cur_col ≠ some i → q.values[i]? = p.values[i]? := by
  cases es with
  | nil =>
    intro p q h _
    rw [JElems.events] at h
    have hq := runEvents_nil_ok h
    subst hq
    exact ⟨rfl, rfl, fun i _ => rfl⟩
  | cons v rest =>
    intro p q h hl
    rw [JElems.events] at h
    obtain ⟨p1, hv, hr⟩ := runEvents_append_ok h
    obtain ⟨v1, v2, v3⟩ := runEvents_val_inv schema v p p1 hv hl
    obtain ⟨r1, r2, r3⟩ := runEvents_elems_inv schema rest p1 q hr
      (by rw [v2]; exact hl)
    refine ⟨by rw [r1, v1], by rw [r2, v2], ?_⟩
    intro i hi
    have hi1 : p1.cur_col ≠ some i := by rw [v1]; exact hi
    calc q.values[i]? = p1.values[i]? := r3 i hi1
      _ = p.values[i]? := v3 i hi
end

theorem runEvents_members_top (schema : Schema) (ms : JMembers) :
    ∀ (p q : PState), runEvents schema p (JMembers.events ms) = .ok q →
      p.level = 1 →
      q.level = 1 ∧
      ∀ i : Nat, (∀ k, k ∈ JMembers.keys ms → lookupColumn schema k ≠ some i) →
        q.values[i]? = p.values[i]? := by
  cases ms with
  | nil =>
    intro p q h hl
    rw [JMembers.events] at h
    have hq := runEvents_nil_ok h
    subst hq
    exact ⟨hl, fun i _ => rfl⟩
  | cons k v rest =>
    intro p q h hl
    rw [JMembers.events] at h
    obtain ⟨p1, hs, hrest2⟩ := runEvents_cons_ok h
    obtain ⟨p2, hv, hr⟩ := runEvents_append_ok hrest2
    obtain ⟨k1, k2, k3, k4, k5, k6⟩ := cb_map_key_spec (oStep_ok hs)
    have hcc : p1.cur_col = lookupColumn schema k := k5 hl
    obtain ⟨v1, v2, v3⟩ := runEvents_val_inv schema v p1 p2 hv (by omega)
    obtain ⟨r1, r2⟩ := runEvents_members_top schema rest p2 q hr
      (by rw [v2, k1]; exact hl)
    refine ⟨r1, ?_⟩
    intro i hmiss
    have hki : lookupColumn schema k ≠ some i :=
      hmiss k (by simp [JMembers.keys])
    have hi1 : p1.cur_col ≠ some i := by rw [hcc]; exact hki
    have hmiss2 : ∀ k2, k2 ∈ JMembers.keys rest → lookupColumn schema k2 ≠ some i := by
      intro k2 hk2
      exact hmiss k2 (by simp [JMembers.keys, hk2])
    calc q.values[i]? = p2.values[i]? := r2 i hmiss2
      _ = p1.values[i]? := v3 i hi1
      _ = p.values[i]? := by rw [k4]

theorem lookupColumn_go {k : String} :
    ∀ (l : List Column) (s i : Nat),
      List.findIdx? (fun c => c.attname = k) l s = some i →
      s ≤ i ∧ ∃ col, l[i - s]? = some col ∧ col.attname = k := by
  intro l
  induction l with
  | nil => intro s i h; cases h
  | cons a l ih =>
    intro s i h
    have hcons : (a :: l).findIdx? (fun c => c.attname = k) s =
        if (a.attname = k : Bool) then some s
        else l.findIdx? (fun c => c.attname = k) (s + 1) := rfl
    rw [hcons] at h
    split at h
    · rename_i hp
      cases h
      refine ⟨le_refl _, a, ?_, by simpa using hp⟩
      simp
    · rename_i hp
      obtain ⟨hs, col, hcol, hname⟩ := ih (s + 1) i h
      refine ⟨by omega, col, ?_, hname⟩
      have hstep : i - s = (i - (s + 1)) + 1 := by omega
      rw [hstep]
      simpa using hcol

theorem lookupColumn_attname {schema : Schema} {k : String} {i : Nat}
    (h : lookupColumn schema k = some i) :
    ∃ col, schema[i]? = some col ∧ col.attname = k := by
  simp only [lookupColumn] at h
  obtain ⟨_, col, hcol, hname⟩ := lookupColumn_go schema 0 i h
  exact ⟨col, by simpa using hcol, hname⟩

/-- C9: a start-object event at level 0 with no pending completed record
resets the row buffer so every column slot is null, and consequently any
schema column whose name does not appear among the record's top-level keys
is null in the row assembled for that record. -/
theorem c9_row_reset_and_missing_null (schema : Schema) (p q : PState)
    (ms : JMembers)
    (hrun : runEvents schema p (JVal.vobj ms).events = .ok q)
    (hl : p.level = 0) (hc : p.record_complete = false) :
    cb_start_map schema p =
      .ok { p with values := List.replicate schema.length none,
                   level := p.level + 1 } ∧
    ∀ i : Nat, i < schema.length →
      (∀ k, k ∈ JMembers.keys ms → ∀ col, schema[i]? = some col →
        col.attname ≠ k) →
      q.values[i]? = some none := by
  constructor
  · simp [cb_start_map, hl, hc]
  · intro i hi hmiss
    rw [JVal.events] at hrun
    obtain ⟨p1, hs, hrest⟩ := runEvents_cons_ok hrun
    obtain ⟨p2, hm, hend⟩ := runEvents_append_ok hrest
    obtain ⟨s1, s2, s3, s4, s5, s6⟩ := cb_start_map_ok_spec hs
    obtain ⟨t1, t2⟩ := runEvents_members_top schema ms p1 p2 hm (by omega)
    obtain ⟨p3, he, hnil⟩ := runEvents_cons_ok hend
    have hq := runEvents_nil_ok hnil
    subst hq
    obtain ⟨w1, _⟩ := cb_end_map_values_level1 (oStep_ok he) t1
    have hmiss2 : ∀ k, k ∈ JMembers.keys ms → lookupColumn schema k ≠ some i := by
      intro k hk hlk
      obtain ⟨col, hcol, hname⟩ := lookupColumn_attname hlk
      exact hmiss k hk col hcol hname
    rw [w1, t2 i hmiss2, s5 hl]
    simp [List.getElem?_replicate, hi]

theorem c9_row_reset_and_missing_null_witness :
    (runEvents exSchema (initPState exSchema) (JVal.vobj c2ms1).events =
       .ok c3pf ∧
     (initPState exSchema).level = 0 ∧
     (initPState exSchema).record_complete = false) ∧
    (cb_start_map exSchema (initPState exSchema) =
      .ok { initPState exSchema with
              values := List.replicate exSchema.length none,
              level := (initPState exSchema).level + 1 } ∧
    ∀ i : Nat, i < exSchema.length →
      (∀ k, k ∈ JMembers.keys c2ms1 → ∀ col, exSchema[i]? = some col →
        col.attname ≠ k) →
      c3pf.values[i]? = some none) :=
  ⟨⟨by decide, rfl, rfl⟩,
   c9_row_reset_and_missing_null exSchema (initPState exSchema) c3pf c2ms1
     (by decide) rfl rfl⟩

theorem cb_end_map_flags_high {schema : Schema} {p q : PState}
    (h : cb_end_map schema p = some q) (hl : 2 < p.level) :
    q.record_started = p.record_started ∧
    q.record_complete = p.record_complete := by
  unfold cb_end_map at h
  cases hc : endMapClose schema p with
  | none => rw [hc] at h; cases h
  | some p2 =>
    simp only [hc] at h
    obtain ⟨e1, e2, e3, e4, e5, e6⟩ := endMapClose_spec hc
    unfold endMapFinish at h
    rw [if_neg (show ¬ ({ p2 with level := p2.level - 1 } : PState).level = 1 by
          show ¬ p2.level - 1 = 1
          omega)] at h
    rw [if_neg (show ¬ ({ p2 with level := p2.level - 1 } : PState).level = 0 by
          show ¬ p2.level - 1 = 0
          omega)] at h
    simp only [Option.some.injEq] at h
    subst h
    exact ⟨e5, e3⟩

theorem cb_end_array_flags_high {schema : Schema} {p q : PState}
    (h : cb_end_array schema p = some q) (hl : 2 < p.level) :
    q.record_started = p.record_started ∧
    q.record_complete = p.record_complete := by
  unfold cb_end_array at h
  cases hc : endArrayClose schema p with
  | none => rw [hc] at h; cases h
  | some p2 =>
    simp only [hc] at h
    obtain ⟨e1, e2, e3, e4, e5⟩ := endArrayClose_spec hc
    unfold endArrayFinish at h
    rw [if_neg (show ¬ ({ p2 with level := p2.level - 1 } : PState).level = 1 by
          show ¬ p2.level - 1 = 1
          omega)] at h
    simp only [Option.some.injEq] at h
    subst h
    exact ⟨e4, e3⟩

theorem pstep_nonstoring {schema : Schema} {p p' : PState} {e : JEvent}
    (h : pstep schema p e = .ok p') (hn : NonStoring e) :
    p'.record_started = p.record_started ∧
    p'.record_complete = p.record_complete := by
  rcases hn with ⟨k, rfl⟩ | rfl | rfl
  · obtain ⟨_, h2, h3, _, _⟩ := cb_map_key_spec (oStep_ok h)
    exact ⟨h3, h2⟩
  · obtain ⟨_, h2, h3, _, _⟩ := cb_start_map_ok_spec h
    exact ⟨h3, h2⟩
  · obtain ⟨_, h2, h3, _, _⟩ := cb_start_array_spec (oStep_ok h)
    exact ⟨h3, h2⟩

theorem runEvents_nonstoring {schema : Schema} :
    ∀ {evs : List JEvent} {p q : PState},
      runEvents schema p evs = .ok q → (∀ e ∈ evs, NonStoring e) →
      q.record_started = p.record_started ∧
      q.record_complete = p.record_complete := by
  intro evs
  induction evs with
  | nil =>
    intro p q h _
    have hq := runEvents_nil_ok h
    subst hq
    exact ⟨rfl, rfl⟩
  | cons e es ih =>
    intro p q h hn
    obtain ⟨p1, hs, hrest⟩ := runEvents_cons_ok h
    obtain ⟨h1, h2⟩ := pstep_nonstoring hs (hn e (by simp))
    obtain ⟨h3, h4⟩ := ih hrest (fun e2 he2 => hn e2 (by simp [he2]))
    exact ⟨by rw [h3, h1], by rw [h4, h2]⟩

/-- C10: every decode call that consumes bytes clears both record flags in
the state it returns (the epilogue unconditionally resets them), the
`P_RECORD_STARTED` status is reported exactly when the parse left
`record_started` set without completing a record, and `record_started` moves
only on storing events — so a consuming call whose chunk delivers only
map-key and structure-open events (a chunk inside an in-progress record with
no value event) reports `P_NO_RECORD`, not `P_RECORD_STARTED`. -/
theorem c10_flags_cleared_no_value_no_started (schema : Schema) :
    (∀ (stream : List Char) (L : LexState) (p : PState) (loc size : Nat)
       (o : QPOut),
      loc < size → quasar_parse schema stream L p loc size = some o →
      o.p.record_started = false ∧ o.p.record_complete = false) ∧
    (∀ (L1 : LexState) (p1 : PState) (loc bytes : Nat),
      (qpFinish L1 p1 loc bytes).ret = .recordStarted ↔
        p1.record_started = true ∧ p1.record_complete = false) ∧
    (∀ (p p' : PState) (e : JEvent), pstep schema p e = .ok p' →
      NonStoring e →
      p'.record_started = p.record_started ∧
      p'.record_complete = p.record_complete) ∧
    (∀ (p p' : PState) (e : JEvent), pstep schema p e = .ok p' →
      (e = .endMap ∨ e = .endArray) → 2 < p.level →
      p'.record_started = p.record_started ∧
      p'.record_complete = p.record_complete) ∧
    (∀ (stream : List Char) (p : PState) (loc size : Nat) (s1 : List Char)
       (Lm : LexState) (e1 : List JEvent) (pm : PState),
      (stream.drop loc).take (size - loc) = s1 →
      lexChars lexInit s1 = some (Lm, e1) →
      runEvents schema p e1 = .ok pm →
      (∀ e ∈ e1, NonStoring e) →
      p.record_started = false → p.record_complete = false →
      loc < size →
      quasar_parse schema stream lexInit p loc size =
        some ⟨.noRecord, Lm, clearFlags pm, loc + s1.length, none⟩) := by
  refine ⟨?_, ?_, ?_, ?_, ?_⟩
  · intro stream L p loc size o hloc h
    rw [quasar_parse, if_pos hloc] at h
    cases hy : yajlRun schema L p ((stream.drop loc).take (size - loc)) with
    | err =>
      simp only [hy] at h
      cases h
    | ok L1 p1 =>
      simp only [hy, Option.some.injEq] at h
      subst h
      exact ⟨rfl, rfl⟩
    | canceled n p1 =>
      simp only [hy, Option.some.injEq] at h
      subst h
      exact ⟨rfl, rfl⟩
  · intro L1 p1 loc bytes
    simp only [qpFinish]
    constructor
    · intro h
      split at h
      · cases h
      · rename_i hc
        split at h
        · rename_i hs
          simp only [Bool.not_eq_true] at hc
          exact ⟨hs, hc⟩
        · cases h
    · rintro ⟨hs, hc⟩
      rw [if_neg (by rw [hc]; exact Bool.false_ne_true), if_pos hs]
  · intro p p' e h hn
    exact pstep_nonstoring h hn
  · intro p p' e h he hl
    rcases he with rfl | rfl
    · exact cb_end_map_flags_high (oStep_ok h) hl
    · exact cb_end_array_flags_high (oStep_ok h) hl
  · intro stream p loc size s1 Lm e1 pm hchunk hlex hrun hnon hs hc hloc
    obtain ⟨h1, _⟩ := runEvents_nonstoring hrun hnon
    have hps : pm.record_started = false := by rw [h1, hs]
    have h := qp_partial_call schema stream
      hchunk hlex hrun ?_ hloc
    · rw [hps] at h
      simpa using h
    · obtain ⟨_, h2⟩ := runEvents_nonstoring hrun hnon
      rw [h2, hc]

theorem c10_flags_cleared_no_value_no_started_witness :
    (0 < 9 ∧
     ((c10stream.drop 0).take (9 - 0) = c10chunk ∧
      lexChars lexInit c10chunk = some (c10L, c10evs) ∧
      runEvents exSchema (initPState exSchema) c10evs = .ok c10pm ∧
      (∀ e ∈ c10evs, NonStoring e) ∧
      (initPState exSchema).record_started = false ∧
      (initPState exSchema).record_complete = false)) ∧
    quasar_parse exSchema c10stream lexInit (initPState exSchema) 0 9 =
      some ⟨.noRecord, c10L, clearFlags c10pm, 0 + c10chunk.length, none⟩ :=
  ⟨⟨by decide, by decide, by decide, by decide,
    by
      intro e he
      simp only [c10evs, List.mem_cons, List.not_mem_nil, or_false] at he
      rcases he with rfl | rfl | rfl
      · exact Or.inr (Or.inl rfl)
      · exact Or.inl ⟨"meta", rfl⟩
      · exact Or.inr (Or.inl rfl),
    rfl, rfl⟩,
   (c10_flags_cleared_no_value_no_started exSchema).2.2.2.2 c10stream
     (initPState exSchema) 0 9 c10chunk c10L c10evs c10pm (by decide)
     (by decide) (by decide)
     (by
       intro e he
       simp only [c10evs, List.mem_cons, List.not_mem_nil, or_false] at he
       rcases he with rfl | rfl | rfl
       · exact Or.inr (Or.inl rfl)
       · exact Or.inl ⟨"meta", rfl⟩
       · exact Or.inr (Or.inl rfl))
     rfl rfl (by decide)⟩

end QuasarFdw
